import Mathlib

/-!
# OpenDSD-GUI: the audio callback pipeline of `src/main.cpp`

A shallow embedding of the ring buffer, the automatic gain control, the
voice interpolator and the digital/analog arbitration of `data_callback`,
with the properties of the specification proved over it.

Modelling conventions:
* `float` samples are rationals (exact arithmetic); the ring buffer itself
  is generic in the sample type, it only copies samples and zero-fills.
* `size_t` cursors are naturals: every cursor stays below `size`, so no
  machine wrap-around is reachable.
* `int` counters are integers: they are only reset to 20 / 30 or
  decremented while positive.
* The DSDcc decoder is an external library: what it reports for one
  callback (sync classification, the two audio bursts) is an input.
-/

namespace OpenDSD

/-! ## Ring buffer (`struct RingBuffer`) -/

/-- The fields of `struct RingBuffer`. -/
structure RingBuffer (α : Type) where
  buffer : List α
  size : Nat
  writeHead : Nat
  readHead : Nat
  available : Nat
deriving DecidableEq

namespace RingBuffer

variable {α : Type} [Zero α]

/-- The `init(bufferSize)` call on a freshly constructed (empty) buffer:
`resize(size, 0.0f)` yields `bufferSize` zeros. -/
def init (bufferSize : Nat) : RingBuffer α :=
  { buffer := List.replicate bufferSize 0
    size := bufferSize
    writeHead := 0
    readHead := 0
    available := 0 }

/-- One iteration of the loop of `write`: store the sample at the write
cursor, advance it, and either count the sample or drop the oldest one. -/
def writeOne (rb : RingBuffer α) (x : α) : RingBuffer α :=
  let buffer := rb.buffer.set rb.writeHead x
  let writeHead := (rb.writeHead + 1) % rb.size
  if rb.available < rb.size then
    { rb with buffer := buffer, writeHead := writeHead, available := rb.available + 1 }
  else
    { rb with buffer := buffer, writeHead := writeHead, readHead := (rb.readHead + 1) % rb.size }

/-- The `write(data, count)` call; `data` lists the `count` samples. -/
def write (rb : RingBuffer α) (data : List α) : RingBuffer α :=
  data.foldl writeOne rb

/-- The copy loop of `read`: `count` iterations, each taking the sample at
the read cursor, advancing the cursor and decrementing `available` (the
guard of `read` has `count ≤ available`, so the decrement never wraps). -/
def readLoop (rb : RingBuffer α) : Nat → List α × RingBuffer α
  | 0 => ([], rb)
  | count + 1 =>
    let x := rb.buffer.getD rb.readHead 0
    let r := readLoop
      { rb with readHead := (rb.readHead + 1) % rb.size, available := rb.available - 1 } count
    (x :: r.1, r.2)

/-- The `read(output, count)` call: returns the `count` samples stored to
`output` and the buffer afterwards.  On underrun the output is zero-filled
(`memset`) and the buffer is not touched. -/
def read (rb : RingBuffer α) (count : Nat) : List α × RingBuffer α :=
  if rb.available < count then (List.replicate count 0, rb)
  else readLoop rb count

end RingBuffer

/-- One call of the ring buffer interface, for describing call sequences. -/
inductive RingOp (α : Type) where
  | write (data : List α)
  | read (count : Nat)

/-- The buffer after one interface call (the output of a read is dropped). -/
def RingBuffer.applyOp {α : Type} [Zero α] (rb : RingBuffer α) : RingOp α → RingBuffer α
  | .write data => rb.write data
  | .read count => (rb.read count).2

/-- The buffer after a sequence of interface calls. -/
def RingBuffer.runOps {α : Type} [Zero α] (rb : RingBuffer α) (ops : List (RingOp α)) :
    RingBuffer α :=
  ops.foldl RingBuffer.applyOp rb

/-- The unread samples of a buffer, oldest first: the `available` cells
starting at the read cursor, taken cyclically. -/
def RingBuffer.contents {α : Type} [Zero α] (rb : RingBuffer α) : List α :=
  (List.range rb.available).map fun i => rb.buffer.getD ((rb.readHead + i) % rb.size) 0

/-- Consistency of the cursors of a buffer of positive capacity: the
storage has `size` cells, both cursors are in range, at most `size` samples
are unread and the write cursor is `available` cells past the read cursor. -/
structure RingBuffer.WF {α : Type} (rb : RingBuffer α) : Prop where
  size_pos : 0 < rb.size
  length_eq : rb.buffer.length = rb.size
  read_lt : rb.readHead < rb.size
  avail_le : rb.available ≤ rb.size
  write_eq : rb.writeHead = (rb.readHead + rb.available) % rb.size

/-! ## Application state and decoder interface -/

/-- Modelled from the spec: the enumeration `DSDcc::DSDDecoder::DSDSyncType`
is declared in the DSDcc headers, which are not part of the sources; the
spec describes it as a fixed enumerated set, none or one of several
per-protocol data and voice sync kinds.  The constructors are the kinds that
`data_callback` names; every other kind of the library is `DSDSyncOther`. -/
inductive DSDSyncType where
  | DSDSyncNone
  | DSDSyncDMRDataP
  | DSDSyncDMRDataMS
  | DSDSyncDMRVoiceP
  | DSDSyncDMRVoiceMS
  | DSDSyncNXDNP
  | DSDSyncNXDNN
  | DSDSyncP25p1P
  | DSDSyncDPMR
  | DSDSyncOther (kind : Nat)
deriving DecidableEq

open DSDSyncType

/-- The fields of `struct AppState` that `data_callback` reads or writes. -/
structure AppState where
  ringBuffer : RingBuffer ℚ
  polarityInvert : Bool
  autoGain : Bool
  analogPassthrough : Bool
  inputGain : ℚ
  currentPeak : ℚ
  lastSampleS1 : ℚ
  lastSampleS2 : ℚ
  decoderStatus : String
  activeSlot : String
  statusHoldCounter : Int
  digitalPrecedenceTimer : Int
  inputScope : List ℚ
deriving DecidableEq

/-- What one invocation of `data_callback` receives: the capture frame
(`frameCount` is its length) and what the decoder reports once the frame has
been fed to it.  For each slot, `none` is a null audio pointer and
`some samples` a pointer to `samples.length` decoded 16-bit samples. -/
structure CallbackInput where
  inBuffer : List ℚ
  sync : DSDSyncType
  audioS1 : Option (List Int)
  audioS2 : Option (List Int)
deriving DecidableEq

/-- The test `samples > 0 && audio != nullptr` on one slot. -/
def hasBurst : Option (List Int) → Bool
  | some (_ :: _) => true
  | _ => false

/-- A callback delivers decoded voice when either slot has a burst. -/
def CallbackInput.hasVoice (inp : CallbackInput) : Bool :=
  hasBurst inp.audioS1 || hasBurst inp.audioS2

/-! ## 1. Input processing -/

/-- The automatic gain update of one sample (the `if (state->autoGain)`
block): decay the peak, raise it to the sample's magnitude, and above the
peak floor blend the target gain into `inputGain`. -/
def agcUpdate (st : AppState) (sample : ℚ) : AppState :=
  if st.autoGain then
    let absSample := |sample|
    let decayed := st.currentPeak * 0.999
    let peak := if absSample > decayed then absSample else decayed
    if peak > 0.001 then
      let targetGain := 0.8 / peak
      { st with currentPeak := peak, inputGain := st.inputGain * 0.95 + targetGain * 0.05 }
    else
      { st with currentPeak := peak }
  else st

/-- The body of the input loop for the sample at index `i`: gain control,
gain, polarity and the decimated scope capture.  Returns the state and the
conditioned sample.  (The sample is then handed to the external decoder.) -/
def processSample (st : AppState) (i : Nat) (sample : ℚ) : AppState × ℚ :=
  let st := agcUpdate st sample
  let sample := sample * st.inputGain
  let sample := if st.polarityInvert then -sample else sample
  let st :=
    if st.inputScope.length < 200 ∧ i % 20 = 0 then
      { st with inputScope := st.inputScope ++ [sample] }
    else st
  (st, sample)

/-- The input loop from index `i` on: the state afterwards and the
conditioned samples (`processedInput`). -/
def inputLoop (st : AppState) (i : Nat) : List ℚ → AppState × List ℚ
  | [] => (st, [])
  | sample :: rest =>
    let r := processSample st i sample
    let r' := inputLoop r.1 (i + 1) rest
    (r'.1, r.2 :: r'.2)

/-- Step 1 of `data_callback` over the whole frame. -/
def inputProcessing (st : AppState) (inBuffer : List ℚ) : AppState × List ℚ :=
  inputLoop st 0 inBuffer

/-! ## 2. Sync check -/

/-- Step 2: any non-none sync arms the precedence timer with 20, otherwise
the timer counts down while positive. -/
def syncUpdate (st : AppState) (sync : DSDSyncType) : AppState :=
  if sync ≠ DSDSyncNone then
    { st with digitalPrecedenceTimer := 20 }
  else if st.digitalPrecedenceTimer > 0 then
    { st with digitalPrecedenceTimer := st.digitalPrecedenceTimer - 1 }
  else st

/-! ## 3. Digital audio -/

/-- The normalised, amplified and clipped target of one decoded sample. -/
def targetSample (raw : Int) : ℚ :=
  let targetSample : ℚ := (raw : ℚ) / 32768
  let targetSample := targetSample * 3.5
  let targetSample := if targetSample > 1 then 1 else targetSample
  if targetSample < -1 then -1 else targetSample

/-- The inner loop of `processSmooth` for one target: six single-sample
writes ramping from `lastSampleState` to `target`. -/
def smoothRamp (rb : RingBuffer ℚ) (lastSampleState target : ℚ) : RingBuffer ℚ :=
  [1, 2, 3, 4, 5, 6].foldl
    (fun (rb : RingBuffer ℚ) (u : Nat) =>
      let t : ℚ := (u : ℚ) / 6
      let smoothVal := lastSampleState + (target - lastSampleState) * t
      rb.write [smoothVal])
    rb

/-- The lambda `processSmooth`: for every decoded sample, ramp to its
target and carry the target as the new `lastSampleState`.  Returns the ring
buffer and the carried sample. -/
def processSmooth (rb : RingBuffer ℚ) (rawAudio : List Int) (lastSampleState : ℚ) :
    RingBuffer ℚ × ℚ :=
  rawAudio.foldl
    (fun (acc : RingBuffer ℚ × ℚ) (raw : Int) =>
      let target := targetSample raw
      (smoothRamp acc.1 acc.2 target, target))
    (rb, lastSampleState)

/-- The handling of slot 1 in step 3. -/
def digitalSlot1 (st : AppState) (audioS1 : Option (List Int)) : AppState :=
  match audioS1 with
  | some (r :: rs) =>
    let p := processSmooth st.ringBuffer (r :: rs) st.lastSampleS1
    { st with activeSlot := "SLOT 1 / CH 1", ringBuffer := p.1, lastSampleS1 := p.2 }
  | _ => st

/-- The handling of slot 2 in step 3. -/
def digitalSlot2 (st : AppState) (audioS2 : Option (List Int)) : AppState :=
  match audioS2 with
  | some (r :: rs) =>
    let p := processSmooth st.ringBuffer (r :: rs) st.lastSampleS2
    { st with activeSlot := "SLOT 2", ringBuffer := p.1, lastSampleS2 := p.2 }
  | _ => st

/-- Step 3: both slots in turn; `gotDigitalVoice` is `inp.hasVoice`. -/
def digitalAudio (st : AppState) (inp : CallbackInput) : AppState :=
  digitalSlot2 (digitalSlot1 st inp.audioS1) inp.audioS2

/-! ## 4. Analog passthrough -/

/-- The loop `for (float s : processedInput) ringBuffer.write(&s, 1)`. -/
def writeEach (rb : RingBuffer ℚ) (processedInput : List ℚ) : RingBuffer ℚ :=
  processedInput.foldl (fun rb s => rb.write [s]) rb

/-- Step 4: without decoded voice, with passthrough enabled and the
precedence timer at zero, the conditioned input goes to the ring buffer. -/
def analogPassthroughStep (st : AppState) (gotDigitalVoice : Bool)
    (processedInput : List ℚ) : AppState :=
  if !gotDigitalVoice then
    if st.analogPassthrough ∧ st.digitalPrecedenceTimer = 0 then
      { st with ringBuffer := writeEach st.ringBuffer processedInput }
    else st
  else st

/-! ## 5. Status logic -/

/-- The `switch (sync)` choosing the status text while analog is muted. -/
def syncStatus : DSDSyncType → String
  | DSDSyncDMRDataP | DSDSyncDMRDataMS | DSDSyncDMRVoiceP | DSDSyncDMRVoiceMS =>
    "SYNC: DMR (Muting Analog)"
  | DSDSyncNXDNP | DSDSyncNXDNN => "SYNC: NXDN (Muting Analog)"
  | DSDSyncP25p1P => "SYNC: P25 (Muting Analog)"
  | DSDSyncDPMR => "SYNC: dPMR (Muting Analog)"
  | _ => "SYNC: DATA (Muting Analog)"

/-- Step 5: the status text, the slot label and the voice-hold counter. -/
def statusLogic (st : AppState) (gotDigitalVoice : Bool) (sync : DSDSyncType) : AppState :=
  if gotDigitalVoice then
    { st with decoderStatus := "DECODING VOICE!", statusHoldCounter := 30 }
  else if st.statusHoldCounter > 0 then
    { st with statusHoldCounter := st.statusHoldCounter - 1 }
  else if st.digitalPrecedenceTimer > 0 then
    { st with activeSlot := "--", decoderStatus := syncStatus sync }
  else
    { st with
      decoderStatus := if st.analogPassthrough then "ANALOG MONITOR (NFM)" else "Searching..."
      activeSlot := "--" }

/-! ## The callback -/

/-- The conditioned input (`processedInput`) of a callback. -/
def processedInput (st : AppState) (inp : CallbackInput) : List ℚ :=
  (inputProcessing st inp.inBuffer).2

/-- The state when step 3 is done: input processed, timer updated, decoded
voice interpolated into the ring buffer. -/
def afterDigital (st : AppState) (inp : CallbackInput) : AppState :=
  digitalAudio (syncUpdate (inputProcessing st inp.inBuffer).1 inp.sync) inp

/-- Steps 1 to 5 of `data_callback`: the state just before playback. -/
def beforePlayback (st : AppState) (inp : CallbackInput) : AppState :=
  statusLogic
    (analogPassthroughStep (afterDigital st inp) inp.hasVoice (processedInput st inp))
    inp.hasVoice inp.sync

/-- The function `data_callback`: the playback frame and the state
afterwards.  `lockAcquired` is the outcome of `audioMutex.try_lock()`; when
it fails the output is silence and the state is not touched. -/
def data_callback (lockAcquired : Bool) (st : AppState) (inp : CallbackInput) :
    List ℚ × AppState :=
  if !lockAcquired then
    (List.replicate inp.inBuffer.length 0, st)
  else
    let st := beforePlayback st inp
    let r := st.ringBuffer.read inp.inBuffer.length
    (r.1, { st with ringBuffer := r.2 })

/-- The state after a run of callbacks that all acquire the lock. -/
def runCallbacks (st : AppState) (inps : List CallbackInput) : AppState :=
  inps.foldl (fun st inp => (data_callback true st inp).2) st

/-- The status texts of the sync-hold state. -/
def syncStatuses : List String :=
  [ "SYNC: DMR (Muting Analog)", "SYNC: NXDN (Muting Analog)", "SYNC: P25 (Muting Analog)",
    "SYNC: dPMR (Muting Analog)", "SYNC: DATA (Muting Analog)" ]

/-- Two states agree on everything but the gain control and the scope
capture: what the input loop leaves alone. -/
structure SameControl (a b : AppState) : Prop where
  ringBuffer : b.ringBuffer = a.ringBuffer
  polarityInvert : b.polarityInvert = a.polarityInvert
  autoGain : b.autoGain = a.autoGain
  analogPassthrough : b.analogPassthrough = a.analogPassthrough
  lastSampleS1 : b.lastSampleS1 = a.lastSampleS1
  lastSampleS2 : b.lastSampleS2 = a.lastSampleS2
  decoderStatus : b.decoderStatus = a.decoderStatus
  activeSlot : b.activeSlot = a.activeSlot
  statusHoldCounter : b.statusHoldCounter = a.statusHoldCounter
  digitalPrecedenceTimer : b.digitalPrecedenceTimer = a.digitalPrecedenceTimer

/-- A callback input without decoded voice and without sync. -/
def quietInput (frame : List ℚ) : CallbackInput :=
  { inBuffer := frame, sync := DSDSyncNone, audioS1 := none, audioS2 := none }

/-- A callback input with a burst of decoded voice on slot 1. -/
def voiceInput (frame : List ℚ) (sync : DSDSyncType) (burst : List Int) : CallbackInput :=
  { inBuffer := frame, sync := sync, audioS1 := some burst, audioS2 := none }

/-- A callback input with a sync classification and no decoded voice. -/
def syncInput (frame : List ℚ) (sync : DSDSyncType) : CallbackInput :=
  { inBuffer := frame, sync := sync, audioS1 := none, audioS2 := none }

/-- The state the constructor of `AppState` sets up, with the given flags. -/
def AppState.initial (autoGain analogPassthrough : Bool) : AppState :=
  { ringBuffer := RingBuffer.init (48000 / 2)
    polarityInvert := false
    autoGain := autoGain
    analogPassthrough := analogPassthrough
    inputGain := 1
    currentPeak := 0.01
    lastSampleS1 := 0
    lastSampleS2 := 0
    decoderStatus := "WAITING"
    activeSlot := "--"
    statusHoldCounter := 0
    digitalPrecedenceTimer := 0
    inputScope := [] }

/-- A state in voice-hold: five callbacks of hold left, precedence timer
expired, passthrough enabled, manual unit gain, ring buffer empty. -/
def holdState : AppState :=
  { AppState.initial false true with
    decoderStatus := "DECODING VOICE!"
    activeSlot := "SLOT 1 / CH 1"
    statusHoldCounter := 5 }

/-! ## Runs of the program -/

/-- What `RenderGUI` writes into the shared state: the three check boxes,
the manual gain slider, and the clearing of the scope capture once it has
been plotted. -/
structure GuiEdit where
  analogPassthrough : Bool
  autoGain : Bool
  polarityInvert : Bool
  inputGain : ℚ
  clearScope : Bool

/-- The state after the GUI thread has applied an edit. -/
def applyGui (st : AppState) (e : GuiEdit) : AppState :=
  { st with
    analogPassthrough := e.analogPassthrough
    autoGain := e.autoGain
    polarityInvert := e.polarityInvert
    inputGain := e.inputGain
    inputScope := if e.clearScope then [] else st.inputScope }

/-- What can happen to the shared state: an invocation of `data_callback`
(with the outcome of its `try_lock`) or an edit by the GUI thread. -/
inductive Event where
  | callback (lockAcquired : Bool) (inp : CallbackInput)
  | gui (edit : GuiEdit)

/-- The state after one event. -/
def stepEvent (st : AppState) : Event → AppState
  | .callback lockAcquired inp => (data_callback lockAcquired st inp).2
  | .gui edit => applyGui st edit

/-- The state after a sequence of events. -/
def runEvents (st : AppState) (events : List Event) : AppState :=
  events.foldl stepEvent st

/-! ## Specification-side descriptions of the interpolator -/

/-- The specification's `clamp(x, -1, 1)`. -/
def clampUnit (x : ℚ) : ℚ := max (-1) (min 1 x)

/-- The specification's ramp from `L` to `T`: the six values
`L + (T - L) * u / 6` for `u = 1..6`. -/
def rampValues (L T : ℚ) : List ℚ :=
  [1, 2, 3, 4, 5, 6].map fun u : ℚ => L + (T - L) * u / 6

/-- The specification's output for a burst: one ramp per decoded sample,
each starting where the previous one ended. -/
def burstValues : List Int → ℚ → List ℚ
  | [], _ => []
  | r :: rs, L =>
    rampValues L (clampUnit (3.5 * (r : ℚ) / 32768)) ++
      burstValues rs (clampUnit (3.5 * (r : ℚ) / 32768))

/-- The specification's carried sample after a burst: the target of the
last decoded sample, or the previous carried sample for an empty burst. -/
def burstCarry : List Int → ℚ → ℚ
  | [], L => L
  | r :: rs, _ => burstCarry rs (clampUnit (3.5 * (r : ℚ) / 32768))

/-- The decoded samples a slot delivers: none for a null pointer. -/
def burstOf (audio : Option (List Int)) : List Int :=
  audio.getD []

/-! ## Ring buffer: cursor invariant and contents -/

section RingLemmas

set_option linter.unusedSectionVars false

variable {α : Type} [Zero α]

theorem mod_add_inj {n a i j : Nat} (hi : i < n) (hj : j < n)
    (h : (a + i) % n = (a + j) % n) : i = j := by
  have h1 : Nat.ModEq n (a + i) (a + j) := h
  have h2 : Nat.ModEq n i j := Nat.ModEq.add_left_cancel' a h1
  have h3 : i % n = j % n := h2
  rwa [Nat.mod_eq_of_lt hi, Nat.mod_eq_of_lt hj] at h3

theorem getD_set_eq (l : List α) (i j : Nat) (x d : α) (hi : i < l.length) :
    (l.set i x).getD j d = if j = i then x else l.getD j d := by
  simp only [List.getD_eq_getElem?_getD, List.getElem?_set]
  by_cases hji : j = i
  · subst hji
    simp [hi]
  · have : ¬ i = j := fun h => hji h.symm
    simp [hji, this]

theorem RingBuffer.length_contents (rb : RingBuffer α) :
    rb.contents.length = rb.available := by
  simp [RingBuffer.contents]

theorem RingBuffer.getElem_contents (rb : RingBuffer α) (i : Nat)
    (hi : i < rb.contents.length) :
    rb.contents[i] = rb.buffer.getD ((rb.readHead + i) % rb.size) 0 := by
  simp [RingBuffer.contents]

theorem RingBuffer.wf_init {N : Nat} (hN : 0 < N) : (RingBuffer.init N : RingBuffer α).WF :=
  ⟨hN, by simp [RingBuffer.init], hN, Nat.zero_le _, by simp [RingBuffer.init]⟩

theorem RingBuffer.contents_init (N : Nat) : (RingBuffer.init N : RingBuffer α).contents = [] := by
  simp [RingBuffer.contents, RingBuffer.init]

theorem RingBuffer.size_writeOne (rb : RingBuffer α) (x : α) :
    (rb.writeOne x).size = rb.size := by
  unfold RingBuffer.writeOne
  split <;> rfl

theorem RingBuffer.wf_writeOne {rb : RingBuffer α} (h : rb.WF) (x : α) :
    (rb.writeOne x).WF := by
  obtain ⟨hpos, hlen, hr, hav, hw⟩ := h
  unfold RingBuffer.writeOne
  split
  · refine ⟨hpos, by simpa using hlen, hr, by simp only; omega, ?_⟩
    simp only
    rw [hw, Nat.mod_add_mod, Nat.add_assoc]
  · have hfull : rb.available = rb.size := by omega
    refine ⟨hpos, by simpa using hlen, Nat.mod_lt _ hpos, hav, ?_⟩
    simp only
    rw [hw, Nat.mod_add_mod, Nat.mod_add_mod, hfull]
    congr 1
    omega

theorem RingBuffer.contents_writeOne {rb : RingBuffer α} (h : rb.WF) (x : α) :
    (rb.writeOne x).contents =
      if rb.available < rb.size then rb.contents ++ [x] else rb.contents.tail ++ [x] := by
  obtain ⟨hpos, hlen, hr, hav, hw⟩ := h
  have hwlt : rb.writeHead < rb.buffer.length := by
    rw [hw, hlen]
    exact Nat.mod_lt _ hpos
  by_cases hlt : rb.available < rb.size
  · rw [if_pos hlt]
    apply List.ext_getElem
    · simp [RingBuffer.length_contents, RingBuffer.writeOne, hlt]
    · intro i h1 h2
      have hi : i < rb.available + 1 := by
        simpa [RingBuffer.length_contents, RingBuffer.writeOne, hlt] using h1
      rw [RingBuffer.getElem_contents]
      simp only [RingBuffer.writeOne, if_pos hlt]
      rw [getD_set_eq _ _ _ _ _ hwlt]
      by_cases hia : i = rb.available
      · subst hia
        rw [if_pos hw.symm, List.getElem_append_right (by simp [RingBuffer.length_contents])]
        simp [RingBuffer.length_contents]
      · have hi' : i < rb.available := by omega
        have hne : ¬ (rb.readHead + i) % rb.size = rb.writeHead := by
          rw [hw]
          intro hc
          exact hia (mod_add_inj (by omega) (by omega) hc)
        rw [if_neg hne, List.getElem_append_left (by simpa [RingBuffer.length_contents] using hi'),
          RingBuffer.getElem_contents]
  · rw [if_neg hlt]
    have hfull : rb.available = rb.size := by omega
    have hwr : rb.writeHead = rb.readHead := by
      rw [hw, hfull, Nat.add_mod_right, Nat.mod_eq_of_lt hr]
    apply List.ext_getElem
    · simp [RingBuffer.length_contents, RingBuffer.writeOne, hlt]
      omega
    · intro i h1 h2
      have hi : i < rb.size := by
        simpa [RingBuffer.length_contents, RingBuffer.writeOne, hlt, hfull] using h1
      rw [RingBuffer.getElem_contents]
      simp only [RingBuffer.writeOne, if_neg hlt]
      rw [getD_set_eq _ _ _ _ _ hwlt, Nat.mod_add_mod]
      by_cases hia : i + 1 = rb.size
      · have hidx : (rb.readHead + 1 + i) % rb.size = rb.writeHead := by
          rw [hwr, Nat.add_assoc, Nat.add_comm 1 i, hia, Nat.add_mod_right, Nat.mod_eq_of_lt hr]
        rw [if_pos hidx, List.getElem_append_right (by simp [RingBuffer.length_contents]; omega)]
        simp [RingBuffer.length_contents]
      · have hi' : i + 1 < rb.size := by omega
        have hne : ¬ (rb.readHead + 1 + i) % rb.size = rb.writeHead := by
          rw [hwr]
          intro hc
          have hc' : (rb.readHead + (1 + i)) % rb.size = (rb.readHead + 0) % rb.size := by
            rw [← Nat.add_assoc, hc, Nat.add_zero, Nat.mod_eq_of_lt hr]
          have := mod_add_inj (by omega) hpos hc'
          omega
        rw [if_neg hne,
          List.getElem_append_left (by simp [RingBuffer.length_contents]; omega)]
        simp only [List.getElem_tail, RingBuffer.getElem_contents]
        congr 2
        omega

theorem RingBuffer.available_writeOne (rb : RingBuffer α) (x : α) :
    (rb.writeOne x).available = if rb.available < rb.size then rb.available + 1 else rb.available := by
  unfold RingBuffer.writeOne
  split <;> rfl

theorem RingBuffer.write_nil (rb : RingBuffer α) : rb.write [] = rb := rfl

theorem RingBuffer.write_cons (rb : RingBuffer α) (x : α) (xs : List α) :
    rb.write (x :: xs) = (rb.writeOne x).write xs := rfl

theorem RingBuffer.write_append (rb : RingBuffer α) (xs ys : List α) :
    rb.write (xs ++ ys) = (rb.write xs).write ys := by
  simp [RingBuffer.write, List.foldl_append]

theorem RingBuffer.size_write (rb : RingBuffer α) (data : List α) :
    (rb.write data).size = rb.size := by
  induction data generalizing rb with
  | nil => rfl
  | cons x xs ih => rw [RingBuffer.write_cons, ih, RingBuffer.size_writeOne]

theorem RingBuffer.wf_write {rb : RingBuffer α} (h : rb.WF) (data : List α) :
    (rb.write data).WF := by
  induction data generalizing rb with
  | nil => exact h
  | cons x xs ih => exact ih (RingBuffer.wf_writeOne h x)

/-- Writing keeps the most recent `size` samples of what was unread plus
what is written. -/
theorem RingBuffer.contents_write {rb : RingBuffer α} (h : rb.WF) (data : List α) :
    (rb.write data).contents =
      (rb.contents ++ data).drop (rb.available + data.length - rb.size) := by
  induction data generalizing rb with
  | nil =>
    have := h.avail_le
    simp [RingBuffer.write_nil, Nat.sub_eq_zero_of_le this]
  | cons x xs ih =>
    rw [RingBuffer.write_cons, ih (RingBuffer.wf_writeOne h x), RingBuffer.contents_writeOne h,
      RingBuffer.available_writeOne, RingBuffer.size_writeOne]
    by_cases hlt : rb.available < rb.size
    · simp only [if_pos hlt, List.append_assoc, List.singleton_append, List.length_cons]
      congr 1
      omega
    · have hfull : rb.available = rb.size := by have := h.avail_le; omega
      have hlen : rb.contents.length = rb.size := by rw [RingBuffer.length_contents, hfull]
      simp only [if_neg hlt, List.append_assoc, List.singleton_append, List.length_cons]
      cases hc : rb.contents with
      | nil =>
        rw [hc] at hlen
        have := h.size_pos
        simp at hlen
        omega
      | cons c t =>
        have e1 : rb.available + (xs.length + 1) - rb.size = (xs.length) + 1 := by omega
        have e2 : rb.available + xs.length - rb.size = xs.length := by omega
        rw [e1, e2]
        simp

theorem RingBuffer.available_write {rb : RingBuffer α} (h : rb.WF) (data : List α) :
    (rb.write data).available = min (rb.available + data.length) rb.size := by
  have h1 := congrArg List.length (RingBuffer.contents_write h data)
  rw [RingBuffer.length_contents] at h1
  rw [h1]
  have := h.avail_le
  simp [RingBuffer.length_contents]
  omega

theorem RingBuffer.contents_eq_cons {rb : RingBuffer α} (h : rb.WF) (ha : 0 < rb.available) :
    rb.contents = rb.buffer.getD rb.readHead 0 ::
      RingBuffer.contents
        { rb with readHead := (rb.readHead + 1) % rb.size, available := rb.available - 1 } := by
  obtain ⟨a, ha'⟩ : ∃ a, rb.available = a + 1 := ⟨rb.available - 1, by omega⟩
  simp only [RingBuffer.contents, ha', List.range_succ_eq_map, List.map_cons, List.map_map,
    Nat.add_zero, Nat.add_sub_cancel, Nat.mod_eq_of_lt h.read_lt]
  congr 1
  apply List.map_congr_left
  intro i _
  simp only [Function.comp, Nat.mod_add_mod]
  congr 2
  omega

theorem RingBuffer.wf_readStep {rb : RingBuffer α} (h : rb.WF) (ha : 0 < rb.available) :
    RingBuffer.WF
      { rb with readHead := (rb.readHead + 1) % rb.size, available := rb.available - 1 } := by
  obtain ⟨hpos, hlen, hr, hav, hw⟩ := h
  refine ⟨hpos, hlen, Nat.mod_lt _ hpos, by simp only; omega, ?_⟩
  simp only
  rw [hw, Nat.mod_add_mod]
  congr 1
  omega

/-- A read of at most `available` samples returns the oldest unread
samples and leaves the rest unread. -/
theorem RingBuffer.readLoop_spec {rb : RingBuffer α} (h : rb.WF) (n : Nat)
    (hn : n ≤ rb.available) :
    (rb.readLoop n).1 = rb.contents.take n ∧ (rb.readLoop n).2.WF ∧
      (rb.readLoop n).2.contents = rb.contents.drop n ∧
      (rb.readLoop n).2.available = rb.available - n ∧
      (rb.readLoop n).2.size = rb.size := by
  induction n generalizing rb with
  | zero => simp [RingBuffer.readLoop, h]
  | succ n ih =>
    have ha : 0 < rb.available := by omega
    obtain ⟨i1, i2, i3, i4, i5⟩ := ih (RingBuffer.wf_readStep h ha) (by simp only; omega)
    simp only [RingBuffer.readLoop]
    rw [RingBuffer.contents_eq_cons h ha]
    refine ⟨by rw [i1]; rfl, i2, by rw [i3]; rfl, ?_, by rw [i5]⟩
    rw [i4]
    simp only
    omega

theorem RingBuffer.read_spec {rb : RingBuffer α} (h : rb.WF) (n : Nat)
    (hn : n ≤ rb.available) :
    (rb.read n).1 = rb.contents.take n ∧ (rb.read n).2.WF ∧
      (rb.read n).2.contents = rb.contents.drop n ∧
      (rb.read n).2.available = rb.available - n ∧
      (rb.read n).2.size = rb.size := by
  unfold RingBuffer.read
  rw [if_neg (by omega)]
  exact RingBuffer.readLoop_spec h n hn

theorem RingBuffer.wf_read {rb : RingBuffer α} (h : rb.WF) (n : Nat) : (rb.read n).2.WF := by
  by_cases hn : n ≤ rb.available
  · exact (RingBuffer.read_spec h n hn).2.1
  · unfold RingBuffer.read
    rw [if_pos (by omega)]
    exact h

theorem RingBuffer.size_read {rb : RingBuffer α} (h : rb.WF) (n : Nat) :
    (rb.read n).2.size = rb.size := by
  by_cases hn : n ≤ rb.available
  · exact (RingBuffer.read_spec h n hn).2.2.2.2
  · unfold RingBuffer.read
    rw [if_pos (by omega)]

theorem RingBuffer.wf_runOps {rb : RingBuffer α} (h : rb.WF) (ops : List (RingOp α)) :
    (rb.runOps ops).WF ∧ (rb.runOps ops).size = rb.size := by
  induction ops generalizing rb with
  | nil => exact ⟨h, rfl⟩
  | cons op ops ih =>
    cases op with
    | write data =>
      have := ih (RingBuffer.wf_write h data)
      exact ⟨this.1, this.2.trans (RingBuffer.size_write rb data)⟩
    | read count =>
      have := ih (RingBuffer.wf_read h count)
      exact ⟨this.1, this.2.trans (RingBuffer.size_read h count)⟩

theorem RingBuffer.foldl_write (rb : RingBuffer α) (calls : List (List α)) :
    calls.foldl RingBuffer.write rb = rb.write calls.flatten := by
  induction calls generalizing rb with
  | nil => rfl
  | cons c cs ih => rw [List.foldl_cons, ih, List.flatten_cons, RingBuffer.write_append]

/-- C1: for every capacity `N > 0` and every sequence of `write` calls on
`init(N)`, after each call (after the first `k` calls, for every `k`), with
`T` the number of samples written so far, `available` is `min(T, N)`, hence
at most `N`, and a read of `min(T, N)` samples returns exactly the last
`min(T, N)` samples written, oldest first. -/
theorem ring_write_keeps_most_recent (N : Nat) (hN : 0 < N) (calls : List (List α)) (k : Nat) :
    ((calls.take k).foldl RingBuffer.write (RingBuffer.init N)).available
        = min (calls.take k).flatten.length N ∧
      ((calls.take k).foldl RingBuffer.write (RingBuffer.init N)).available ≤ N ∧
      (((calls.take k).foldl RingBuffer.write (RingBuffer.init N)).read
          (min (calls.take k).flatten.length N)).1
        = (calls.take k).flatten.drop
            ((calls.take k).flatten.length - min (calls.take k).flatten.length N) := by
  rw [RingBuffer.foldl_write]
  generalize (calls.take k).flatten = written
  have hwf : (RingBuffer.init N : RingBuffer α).WF := RingBuffer.wf_init hN
  have hav : ((RingBuffer.init N : RingBuffer α).write written).available
      = min written.length N := by
    rw [RingBuffer.available_write hwf]
    simp [RingBuffer.init]
  refine ⟨hav, by rw [hav]; exact Nat.min_le_right _ _, ?_⟩
  have hr := (RingBuffer.read_spec (RingBuffer.wf_write hwf written) (min written.length N)
    (by rw [hav])).1
  rw [hr, RingBuffer.contents_write hwf, RingBuffer.contents_init]
  simp only [RingBuffer.init, List.nil_append, Nat.zero_add]
  have e : written.length - min written.length N = written.length - N := by omega
  rw [e, List.take_of_length_le]
  simp only [List.length_drop]
  omega

theorem ring_write_keeps_most_recent_witness :
    0 < 3 ∧
      (([[1, 2], [3, 4, 5]] : List (List Nat)).take 2).foldl RingBuffer.write
          (RingBuffer.init 3) =
        { buffer := [4, 5, 3], size := 3, writeHead := 2, readHead := 2, available := 3 } ∧
      ((([[1, 2], [3, 4, 5]] : List (List Nat)).take 2).foldl RingBuffer.write
          (RingBuffer.init 3)).available = min (([[1, 2], [3, 4, 5]].take 2).flatten.length) 3 ∧
      ((([[1, 2], [3, 4, 5]] : List (List Nat)).take 2).foldl RingBuffer.write
          (RingBuffer.init 3)).available ≤ 3 ∧
      (((([[1, 2], [3, 4, 5]] : List (List Nat)).take 2).foldl RingBuffer.write
          (RingBuffer.init 3)).read (min (([[1, 2], [3, 4, 5]].take 2).flatten.length) 3)).1
        = ([[1, 2], [3, 4, 5]].take 2).flatten.drop
            (([[1, 2], [3, 4, 5]].take 2).flatten.length
              - min (([[1, 2], [3, 4, 5]].take 2).flatten.length) 3) :=
  ⟨by decide, by decide, ring_write_keeps_most_recent 3 (by decide) [[1, 2], [3, 4, 5]] 2⟩

/-- C2: in every state reachable from `init(N)`, `N > 0`, by writes and
reads in which the buffer is empty (`available = 0`, cursors anywhere),
writing `n ≤ N` samples and then reading `n` samples returns exactly the
written sequence in order and leaves the buffer empty. -/
theorem ring_round_trip (N : Nat) (hN : 0 < N) (ops : List (RingOp α)) (data : List α)
    (hempty : ((RingBuffer.init N : RingBuffer α).runOps ops).available = 0)
    (hn : data.length ≤ N) :
    ((((RingBuffer.init N : RingBuffer α).runOps ops).write data).read data.length).1 = data ∧
      ((((RingBuffer.init N : RingBuffer α).runOps ops).write data).read data.length).2.available
        = 0 := by
  obtain ⟨hwf, hsize⟩ := RingBuffer.wf_runOps (RingBuffer.wf_init hN : (RingBuffer.init N : RingBuffer α).WF) ops
  generalize (RingBuffer.init N : RingBuffer α).runOps ops = rb at hempty hwf hsize
  have hsz : rb.size = N := hsize
  have hc : rb.contents = [] := by
    apply List.eq_nil_of_length_eq_zero
    rw [RingBuffer.length_contents, hempty]
  have hav : (rb.write data).available = data.length := by
    rw [RingBuffer.available_write hwf, hempty, hsz]
    omega
  obtain ⟨h1, -, -, h4, -⟩ :=
    RingBuffer.read_spec (RingBuffer.wf_write hwf data) data.length (by rw [hav])
  refine ⟨?_, by rw [h4, hav]; omega⟩
  rw [h1, RingBuffer.contents_write hwf, hc, hempty, hsz]
  have e : 0 + data.length - N = 0 := by omega
  rw [e]
  simp

theorem ring_round_trip_witness :
    0 < 3 ∧
      ((RingBuffer.init 3 : RingBuffer Nat).runOps [.write [7, 8], .read 2]) =
        { buffer := [7, 8, 0], size := 3, writeHead := 2, readHead := 2, available := 0 } ∧
      ([4, 5, 6] : List Nat).length ≤ 3 ∧
      ((((RingBuffer.init 3 : RingBuffer Nat).runOps [.write [7, 8], .read 2]).write
          [4, 5, 6]).read ([4, 5, 6] : List Nat).length).1 = [4, 5, 6] ∧
      ((((RingBuffer.init 3 : RingBuffer Nat).runOps [.write [7, 8], .read 2]).write
          [4, 5, 6]).read ([4, 5, 6] : List Nat).length).2.available = 0 :=
  ⟨by decide, by decide, by decide,
    ring_round_trip 3 (by decide) [.write [7, 8], .read 2] [4, 5, 6] (by decide) (by decide)⟩

/-- C3: for every buffer state and every `count` with `available < count`,
`read(count)` outputs `count` zeros and leaves the whole buffer (stored
samples, both cursors, `available`) as it was, so that repeating the failed
read gives the same output and state. -/
theorem ring_read_underrun (rb : RingBuffer α) (count : Nat) (h : rb.available < count) :
    (rb.read count).1 = List.replicate count 0 ∧
      (rb.read count).2.buffer = rb.buffer ∧
      (rb.read count).2.available = rb.available ∧
      (rb.read count).2.readHead = rb.readHead ∧
      (rb.read count).2.writeHead = rb.writeHead ∧
      (rb.read count).2 = rb ∧
      (rb.read count).2.read count = rb.read count := by
  have e : rb.read count = (List.replicate count 0, rb) := by
    unfold RingBuffer.read
    rw [if_pos h]
  rw [e]
  exact ⟨rfl, rfl, rfl, rfl, rfl, rfl, e⟩

theorem ring_read_underrun_witness :
    ((RingBuffer.init 4 : RingBuffer Nat).write [9, 8]).available < 3 ∧
      (((RingBuffer.init 4 : RingBuffer Nat).write [9, 8]).read 3).1 = [0, 0, 0] ∧
      (((RingBuffer.init 4 : RingBuffer Nat).write [9, 8]).read 3).2 =
        { buffer := [9, 8, 0, 0], size := 4, writeHead := 2, readHead := 0, available := 2 } :=
  ⟨by decide,
    (ring_read_underrun ((RingBuffer.init 4 : RingBuffer Nat).write [9, 8]) 3 (by decide)).1,
    by decide⟩

end RingLemmas

/-! ## The callback: which step touches which field -/

theorem SameControl.refl (a : AppState) : SameControl a a :=
  ⟨rfl, rfl, rfl, rfl, rfl, rfl, rfl, rfl, rfl, rfl⟩

theorem SameControl.trans {a b c : AppState} (h1 : SameControl a b) (h2 : SameControl b c) :
    SameControl a c :=
  ⟨h2.1.trans h1.1, h2.2.trans h1.2, h2.3.trans h1.3, h2.4.trans h1.4, h2.5.trans h1.5,
    h2.6.trans h1.6, h2.7.trans h1.7, h2.8.trans h1.8, h2.9.trans h1.9, h2.10.trans h1.10⟩

theorem agcUpdate_same (st : AppState) (x : ℚ) : SameControl st (agcUpdate st x) := by
  unfold agcUpdate
  simp only
  split_ifs <;> exact ⟨rfl, rfl, rfl, rfl, rfl, rfl, rfl, rfl, rfl, rfl⟩

theorem processSample_same (st : AppState) (i : Nat) (x : ℚ) :
    SameControl st (processSample st i x).1 := by
  refine SameControl.trans (agcUpdate_same st x) ?_
  unfold processSample
  simp only
  split_ifs <;> exact ⟨rfl, rfl, rfl, rfl, rfl, rfl, rfl, rfl, rfl, rfl⟩

theorem inputLoop_same (st : AppState) (i : Nat) (xs : List ℚ) :
    SameControl st (inputLoop st i xs).1 := by
  induction xs generalizing st i with
  | nil => exact SameControl.refl st
  | cons x xs ih => exact SameControl.trans (processSample_same st i x) (ih _ _)

theorem inputProcessing_same (st : AppState) (xs : List ℚ) :
    SameControl st (inputProcessing st xs).1 :=
  inputLoop_same st 0 xs

theorem hasBurst_false {a : Option (List Int)} (h : hasBurst a = false) :
    a = none ∨ a = some [] := by
  match a with
  | none => exact Or.inl rfl
  | some [] => exact Or.inr rfl
  | some (_ :: _) => simp [hasBurst] at h

theorem digitalAudio_noVoice (st : AppState) (inp : CallbackInput) (h : inp.hasVoice = false) :
    digitalAudio st inp = st := by
  simp only [CallbackInput.hasVoice, Bool.or_eq_false_iff] at h
  unfold digitalAudio
  rcases hasBurst_false h.1 with h1 | h1 <;> rcases hasBurst_false h.2 with h2 | h2 <;>
    simp [h1, h2, digitalSlot1, digitalSlot2]

theorem digitalAudio_misc (st : AppState) (inp : CallbackInput) :
    (digitalAudio st inp).analogPassthrough = st.analogPassthrough ∧
      (digitalAudio st inp).statusHoldCounter = st.statusHoldCounter ∧
      (digitalAudio st inp).decoderStatus = st.decoderStatus ∧
      (digitalAudio st inp).autoGain = st.autoGain ∧
      (digitalAudio st inp).digitalPrecedenceTimer = st.digitalPrecedenceTimer ∧
      (digitalAudio st inp).inputGain = st.inputGain ∧
      (digitalAudio st inp).currentPeak = st.currentPeak := by
  unfold digitalAudio digitalSlot1 digitalSlot2
  split <;> split <;> exact ⟨rfl, rfl, rfl, rfl, rfl, rfl, rfl⟩

theorem writeEach_eq_write (rb : RingBuffer ℚ) (xs : List ℚ) : writeEach rb xs = rb.write xs := by
  induction xs generalizing rb with
  | nil => rfl
  | cons x xs ih =>
    simp only [writeEach, List.foldl_cons] at ih ⊢
    rw [ih]
    rfl

theorem syncUpdate_timer (st : AppState) (sync : DSDSyncType) :
    (syncUpdate st sync).digitalPrecedenceTimer =
      if sync ≠ DSDSyncNone then 20
      else if st.digitalPrecedenceTimer > 0 then st.digitalPrecedenceTimer - 1
      else st.digitalPrecedenceTimer := by
  unfold syncUpdate
  split_ifs <;> rfl

theorem syncUpdate_misc (st : AppState) (sync : DSDSyncType) :
    (syncUpdate st sync).analogPassthrough = st.analogPassthrough ∧
      (syncUpdate st sync).statusHoldCounter = st.statusHoldCounter ∧
      (syncUpdate st sync).decoderStatus = st.decoderStatus ∧
      (syncUpdate st sync).autoGain = st.autoGain ∧
      (syncUpdate st sync).ringBuffer = st.ringBuffer ∧
      (syncUpdate st sync).activeSlot = st.activeSlot ∧
      (syncUpdate st sync).inputGain = st.inputGain ∧
      (syncUpdate st sync).currentPeak = st.currentPeak := by
  unfold syncUpdate
  split_ifs <;> exact ⟨rfl, rfl, rfl, rfl, rfl, rfl, rfl, rfl⟩

/-- The precedence timer once step 2 has run: the value steps 4 and 5 see. -/
theorem timer_afterDigital (st : AppState) (inp : CallbackInput) :
    (afterDigital st inp).digitalPrecedenceTimer =
      (syncUpdate st inp.sync).digitalPrecedenceTimer := by
  unfold afterDigital
  rw [(digitalAudio_misc _ _).2.2.2.2.1, syncUpdate_timer, syncUpdate_timer,
    (inputProcessing_same st inp.inBuffer).digitalPrecedenceTimer]

theorem afterDigital_misc (st : AppState) (inp : CallbackInput) :
    (afterDigital st inp).analogPassthrough = st.analogPassthrough ∧
      (afterDigital st inp).statusHoldCounter = st.statusHoldCounter ∧
      (afterDigital st inp).decoderStatus = st.decoderStatus ∧
      (afterDigital st inp).autoGain = st.autoGain := by
  have h := inputProcessing_same st inp.inBuffer
  have h1 := digitalAudio_misc (syncUpdate (inputProcessing st inp.inBuffer).1 inp.sync) inp
  have h2 := syncUpdate_misc (inputProcessing st inp.inBuffer).1 inp.sync
  unfold afterDigital
  exact ⟨h1.1.trans (h2.1.trans h.analogPassthrough),
    h1.2.1.trans (h2.2.1.trans h.statusHoldCounter),
    h1.2.2.1.trans (h2.2.2.1.trans h.decoderStatus),
    h1.2.2.2.1.trans (h2.2.2.2.1.trans h.autoGain)⟩

theorem afterDigital_noVoice (st : AppState) (inp : CallbackInput) (h : inp.hasVoice = false) :
    (afterDigital st inp).ringBuffer = st.ringBuffer ∧
      (afterDigital st inp).activeSlot = st.activeSlot := by
  have h0 := inputProcessing_same st inp.inBuffer
  have h2 := syncUpdate_misc (inputProcessing st inp.inBuffer).1 inp.sync
  unfold afterDigital
  rw [digitalAudio_noVoice _ _ h]
  exact ⟨h2.2.2.2.2.1.trans h0.ringBuffer, h2.2.2.2.2.2.1.trans h0.activeSlot⟩

theorem analogPassthroughStep_misc (st : AppState) (got : Bool) (xs : List ℚ) :
    (analogPassthroughStep st got xs).analogPassthrough = st.analogPassthrough ∧
      (analogPassthroughStep st got xs).statusHoldCounter = st.statusHoldCounter ∧
      (analogPassthroughStep st got xs).decoderStatus = st.decoderStatus ∧
      (analogPassthroughStep st got xs).autoGain = st.autoGain ∧
      (analogPassthroughStep st got xs).digitalPrecedenceTimer = st.digitalPrecedenceTimer ∧
      (analogPassthroughStep st got xs).activeSlot = st.activeSlot ∧
      (analogPassthroughStep st got xs).inputGain = st.inputGain ∧
      (analogPassthroughStep st got xs).currentPeak = st.currentPeak := by
  unfold analogPassthroughStep
  split_ifs <;> exact ⟨rfl, rfl, rfl, rfl, rfl, rfl, rfl, rfl⟩

theorem statusLogic_misc (st : AppState) (got : Bool) (sync : DSDSyncType) :
    (statusLogic st got sync).analogPassthrough = st.analogPassthrough ∧
      (statusLogic st got sync).ringBuffer = st.ringBuffer ∧
      (statusLogic st got sync).autoGain = st.autoGain ∧
      (statusLogic st got sync).digitalPrecedenceTimer = st.digitalPrecedenceTimer ∧
      (statusLogic st got sync).inputGain = st.inputGain ∧
      (statusLogic st got sync).currentPeak = st.currentPeak := by
  unfold statusLogic
  split_ifs <;> exact ⟨rfl, rfl, rfl, rfl, rfl, rfl⟩

theorem beforePlayback_timer (st : AppState) (inp : CallbackInput) :
    (beforePlayback st inp).digitalPrecedenceTimer =
      (syncUpdate st inp.sync).digitalPrecedenceTimer := by
  unfold beforePlayback
  rw [(statusLogic_misc _ _ _).2.2.2.1, (analogPassthroughStep_misc _ _ _).2.2.2.2.1,
    timer_afterDigital]

theorem beforePlayback_passthrough (st : AppState) (inp : CallbackInput) :
    (beforePlayback st inp).analogPassthrough = st.analogPassthrough := by
  unfold beforePlayback
  rw [(statusLogic_misc _ _ _).1, (analogPassthroughStep_misc _ _ _).1, (afterDigital_misc _ _).1]

theorem beforePlayback_autoGain (st : AppState) (inp : CallbackInput) :
    (beforePlayback st inp).autoGain = st.autoGain := by
  unfold beforePlayback
  rw [(statusLogic_misc _ _ _).2.2.1, (analogPassthroughStep_misc _ _ _).2.2.2.1,
    (afterDigital_misc _ _).2.2.2]

/-- The ring buffer just before playback: the analog write of step 4 is
decided by `gotDigitalVoice`, the passthrough flag and the updated timer. -/
theorem beforePlayback_ring (st : AppState) (inp : CallbackInput) :
    (beforePlayback st inp).ringBuffer =
      if inp.hasVoice = false ∧ st.analogPassthrough = true ∧
          (syncUpdate st inp.sync).digitalPrecedenceTimer = 0 then
        (afterDigital st inp).ringBuffer.write (processedInput st inp)
      else (afterDigital st inp).ringBuffer := by
  unfold beforePlayback
  rw [(statusLogic_misc _ _ _).2.1]
  unfold analogPassthroughStep
  rw [(afterDigital_misc _ _).1, timer_afterDigital]
  cases hv : inp.hasVoice <;> by_cases hp : st.analogPassthrough = true <;>
    by_cases ht : (syncUpdate st inp.sync).digitalPrecedenceTimer = 0 <;>
    simp [hp, ht, writeEach_eq_write]

theorem beforePlayback_hold (st : AppState) (inp : CallbackInput) :
    (beforePlayback st inp).statusHoldCounter =
      if inp.hasVoice = true then 30
      else if st.statusHoldCounter > 0 then st.statusHoldCounter - 1
      else st.statusHoldCounter := by
  have h1 := (analogPassthroughStep_misc (afterDigital st inp) inp.hasVoice
    (processedInput st inp)).2.1
  have h2 := (afterDigital_misc st inp).2.1
  unfold beforePlayback statusLogic
  rw [h1, h2]
  split_ifs <;> rfl

theorem beforePlayback_status (st : AppState) (inp : CallbackInput) :
    (beforePlayback st inp).decoderStatus =
      if inp.hasVoice = true then "DECODING VOICE!"
      else if st.statusHoldCounter > 0 then st.decoderStatus
      else if (syncUpdate st inp.sync).digitalPrecedenceTimer > 0 then syncStatus inp.sync
      else if st.analogPassthrough = true then "ANALOG MONITOR (NFM)"
      else "Searching..." := by
  have h := analogPassthroughStep_misc (afterDigital st inp) inp.hasVoice (processedInput st inp)
  have h' := afterDigital_misc st inp
  unfold beforePlayback statusLogic
  rw [h.2.1, h'.2.1, h.2.2.2.2.1, timer_afterDigital, h.1, h'.1]
  split_ifs <;> first | rfl | exact h.2.2.1.trans h'.2.2.1

theorem beforePlayback_slot_hold (st : AppState) (inp : CallbackInput)
    (hv : inp.hasVoice = false) (hh : 0 < st.statusHoldCounter) :
    (beforePlayback st inp).activeSlot = st.activeSlot := by
  have h := analogPassthroughStep_misc (afterDigital st inp) inp.hasVoice (processedInput st inp)
  have h' := afterDigital_misc st inp
  unfold beforePlayback statusLogic
  rw [h.2.1, h'.2.1, hv]
  simp only [Bool.false_eq_true, if_false, gt_iff_lt, if_pos hh]
  rw [hv] at h
  exact h.2.2.2.2.2.1.trans (afterDigital_noVoice st inp hv).2

theorem data_callback_locked (st : AppState) (inp : CallbackInput) :
    data_callback true st inp =
      (((beforePlayback st inp).ringBuffer.read inp.inBuffer.length).1,
        { beforePlayback st inp with
          ringBuffer := ((beforePlayback st inp).ringBuffer.read inp.inBuffer.length).2 }) :=
  rfl

theorem runCallbacks_append (st : AppState) (xs ys : List CallbackInput) :
    runCallbacks st (xs ++ ys) = runCallbacks (runCallbacks st xs) ys := by
  simp [runCallbacks, List.foldl_append]

theorem runCallbacks_cons (st : AppState) (x : CallbackInput) (xs : List CallbackInput) :
    runCallbacks st (x :: xs) = runCallbacks (data_callback true st x).2 xs := rfl

/-! ## Arbitration: counters and the analog write -/

/-- One callback from counters within `0..21` and `0..31`: the counters
stay within these bounds, decrease by at most 1, and increase only on their
event, to 20 and 30. -/
theorem counters_step (lockAcquired : Bool) (st : AppState) (inp : CallbackInput)
    (ht : 0 ≤ st.digitalPrecedenceTimer) (hh : 0 ≤ st.statusHoldCounter)
    (ht' : st.digitalPrecedenceTimer ≤ 21) (hh' : st.statusHoldCounter ≤ 31) :
    0 ≤ (data_callback lockAcquired st inp).2.digitalPrecedenceTimer ∧
      0 ≤ (data_callback lockAcquired st inp).2.statusHoldCounter ∧
      (data_callback lockAcquired st inp).2.digitalPrecedenceTimer ≤ 21 ∧
      (data_callback lockAcquired st inp).2.statusHoldCounter ≤ 31 ∧
      st.digitalPrecedenceTimer - 1 ≤ (data_callback lockAcquired st inp).2.digitalPrecedenceTimer ∧
      st.statusHoldCounter - 1 ≤ (data_callback lockAcquired st inp).2.statusHoldCounter ∧
      (st.digitalPrecedenceTimer < (data_callback lockAcquired st inp).2.digitalPrecedenceTimer →
        inp.sync ≠ DSDSyncNone ∧
          (data_callback lockAcquired st inp).2.digitalPrecedenceTimer = 20) ∧
      (st.statusHoldCounter < (data_callback lockAcquired st inp).2.statusHoldCounter →
        inp.hasVoice = true ∧ (data_callback lockAcquired st inp).2.statusHoldCounter = 30) := by
  cases lockAcquired with
  | false =>
    simp only [data_callback, Bool.not_false, if_true]
    exact ⟨ht, hh, ht', hh', by omega, by omega, fun h => absurd h (lt_irrefl _),
      fun h => absurd h (lt_irrefl _)⟩
  | true =>
    have e1 : (data_callback true st inp).2.digitalPrecedenceTimer =
        (beforePlayback st inp).digitalPrecedenceTimer := rfl
    have e2 : (data_callback true st inp).2.statusHoldCounter =
        (beforePlayback st inp).statusHoldCounter := rfl
    rw [e1, e2, beforePlayback_timer, syncUpdate_timer, beforePlayback_hold]
    split_ifs <;> refine ⟨?_, ?_, ?_, ?_, ?_, ?_, ?_, ?_⟩ <;> intros <;>
      first
        | omega
        | exact ⟨by assumption, rfl⟩

/-- The counters of one callback, whatever the state at entry. -/
theorem callback_counters (lockAcquired : Bool) (st : AppState) (inp : CallbackInput) :
    (data_callback lockAcquired st inp).2.digitalPrecedenceTimer =
        (if lockAcquired = true then
          if inp.sync ≠ DSDSyncNone then 20
          else if st.digitalPrecedenceTimer > 0 then st.digitalPrecedenceTimer - 1
          else st.digitalPrecedenceTimer
        else st.digitalPrecedenceTimer) ∧
      (data_callback lockAcquired st inp).2.statusHoldCounter =
        (if lockAcquired = true then
          if inp.hasVoice = true then 30
          else if st.statusHoldCounter > 0 then st.statusHoldCounter - 1
          else st.statusHoldCounter
        else st.statusHoldCounter) := by
  cases lockAcquired with
  | false => exact ⟨rfl, rfl⟩
  | true =>
    have e1 : (data_callback true st inp).2.digitalPrecedenceTimer =
        (beforePlayback st inp).digitalPrecedenceTimer := rfl
    have e2 : (data_callback true st inp).2.statusHoldCounter =
        (beforePlayback st inp).statusHoldCounter := rfl
    rw [e1, e2, beforePlayback_timer, syncUpdate_timer, beforePlayback_hold]
    exact ⟨rfl, rfl⟩

/-- The counter ranges are an invariant of the program: whatever sequence
of callbacks and GUI edits has happened since the state was constructed,
the precedence timer is within `0..20` and the hold counter within `0..30`. -/
theorem counters_range (st : AppState) (events : List Event)
    (ht : 0 ≤ st.digitalPrecedenceTimer ∧ st.digitalPrecedenceTimer ≤ 20)
    (hh : 0 ≤ st.statusHoldCounter ∧ st.statusHoldCounter ≤ 30) :
    (0 ≤ (runEvents st events).digitalPrecedenceTimer ∧
        (runEvents st events).digitalPrecedenceTimer ≤ 20) ∧
      (0 ≤ (runEvents st events).statusHoldCounter ∧
        (runEvents st events).statusHoldCounter ≤ 30) := by
  induction events generalizing st with
  | nil => exact ⟨ht, hh⟩
  | cons ev evs ih =>
    have e : runEvents st (ev :: evs) = runEvents (stepEvent st ev) evs := rfl
    rw [e]
    cases ev with
    | gui edit => exact ih (applyGui st edit) ht hh
    | callback lk inp =>
      obtain ⟨c1, c2⟩ := callback_counters lk st inp
      apply ih
      · show 0 ≤ (data_callback lk st inp).2.digitalPrecedenceTimer ∧
          (data_callback lk st inp).2.digitalPrecedenceTimer ≤ 20
        rw [c1]
        split_ifs <;> constructor <;> omega
      · show 0 ≤ (data_callback lk st inp).2.statusHoldCounter ∧
          (data_callback lk st inp).2.statusHoldCounter ≤ 30
        rw [c2]
        split_ifs <;> constructor <;> omega

/-- C10: in every state the program reaches (from the constructed state,
where both counters are 0, by any sequence of callbacks, with or without
the lock, and GUI edits) `digitalPrecedenceTimer` and `statusHoldCounter`
are `≥ 0` (and at most 20 and 30), and after the next callback, for every
lock outcome, sync classification and combination of bursts, both counters
are still `≥ 0` (and at most 20 and 30), each has decreased by at most 1,
the timer has increased only if the sync classification is non-none, and is
then 20, and the hold counter has increased only if decoded voice was
delivered, and is then 30. -/
theorem counters_invariant (autoGain analogPassthrough : Bool) (events : List Event)
    (lockAcquired : Bool) (inp : CallbackInput) :
    (0 ≤ (runEvents (AppState.initial autoGain analogPassthrough) events).digitalPrecedenceTimer ∧
      (runEvents (AppState.initial autoGain analogPassthrough) events).digitalPrecedenceTimer
        ≤ 20 ∧
      0 ≤ (runEvents (AppState.initial autoGain analogPassthrough) events).statusHoldCounter ∧
      (runEvents (AppState.initial autoGain analogPassthrough) events).statusHoldCounter ≤ 30) ∧
    0 ≤ (data_callback lockAcquired
        (runEvents (AppState.initial autoGain analogPassthrough) events)
        inp).2.digitalPrecedenceTimer ∧
      0 ≤ (data_callback lockAcquired
        (runEvents (AppState.initial autoGain analogPassthrough) events)
        inp).2.statusHoldCounter ∧
      (data_callback lockAcquired
        (runEvents (AppState.initial autoGain analogPassthrough) events)
        inp).2.digitalPrecedenceTimer ≤ 20 ∧
      (data_callback lockAcquired
        (runEvents (AppState.initial autoGain analogPassthrough) events)
        inp).2.statusHoldCounter ≤ 30 ∧
      (runEvents (AppState.initial autoGain analogPassthrough) events).digitalPrecedenceTimer - 1
        ≤ (data_callback lockAcquired
          (runEvents (AppState.initial autoGain analogPassthrough) events)
          inp).2.digitalPrecedenceTimer ∧
      (runEvents (AppState.initial autoGain analogPassthrough) events).statusHoldCounter - 1
        ≤ (data_callback lockAcquired
          (runEvents (AppState.initial autoGain analogPassthrough) events)
          inp).2.statusHoldCounter ∧
      ((runEvents (AppState.initial autoGain analogPassthrough) events).digitalPrecedenceTimer
          < (data_callback lockAcquired
            (runEvents (AppState.initial autoGain analogPassthrough) events)
            inp).2.digitalPrecedenceTimer →
        inp.sync ≠ DSDSyncNone ∧
          (data_callback lockAcquired
            (runEvents (AppState.initial autoGain analogPassthrough) events)
            inp).2.digitalPrecedenceTimer = 20) ∧
      ((runEvents (AppState.initial autoGain analogPassthrough) events).statusHoldCounter
          < (data_callback lockAcquired
            (runEvents (AppState.initial autoGain analogPassthrough) events)
            inp).2.statusHoldCounter →
        inp.hasVoice = true ∧
          (data_callback lockAcquired
            (runEvents (AppState.initial autoGain analogPassthrough) events)
            inp).2.statusHoldCounter = 30) := by
  have it : 0 ≤ (AppState.initial autoGain analogPassthrough).digitalPrecedenceTimer ∧
      (AppState.initial autoGain analogPassthrough).digitalPrecedenceTimer ≤ 20 :=
    ⟨le_refl _, by show (0 : Int) ≤ 20; decide⟩
  have ih : 0 ≤ (AppState.initial autoGain analogPassthrough).statusHoldCounter ∧
      (AppState.initial autoGain analogPassthrough).statusHoldCounter ≤ 30 :=
    ⟨le_refl _, by show (0 : Int) ≤ 30; decide⟩
  obtain ⟨⟨t0, t1⟩, ⟨h0, h1⟩⟩ := counters_range (AppState.initial autoGain analogPassthrough)
    events it ih
  have next := counters_range (AppState.initial autoGain analogPassthrough)
    (events ++ [Event.callback lockAcquired inp]) it ih
  have e : runEvents (AppState.initial autoGain analogPassthrough)
      (events ++ [Event.callback lockAcquired inp]) =
      (data_callback lockAcquired
        (runEvents (AppState.initial autoGain analogPassthrough) events) inp).2 := by
    simp [runEvents, List.foldl_append, stepEvent]
  rw [e] at next
  obtain ⟨s1, s2, -, -, s5, s6, s7, s8⟩ :=
    counters_step lockAcquired (runEvents (AppState.initial autoGain analogPassthrough) events)
      inp t0 h0 (by omega) (by omega)
  exact ⟨⟨t0, t1, h0, h1⟩, s1, s2, next.1.2, next.2.2, s5, s6, s7, s8⟩

theorem counters_invariant_witness :
    (data_callback true
        (runEvents (AppState.initial true false)
          [Event.callback true (voiceInput [0] DSDSyncDMRVoiceP [1000]),
            Event.gui ⟨true, false, false, 2, true⟩,
            Event.callback false (quietInput [0])])
        (quietInput [1 / 2])).2.statusHoldCounter ≤ 30 :=
  (counters_invariant true false
    [Event.callback true (voiceInput [0] DSDSyncDMRVoiceP [1000]),
      Event.gui ⟨true, false, false, 2, true⟩,
      Event.callback false (quietInput [0])]
    true (quietInput [1 / 2])).2.2.2.2.1

/-- C4 (amended): in every callback that acquires the lock, the conditioned
analog input is written into the ring buffer if and only if no decoded voice
was produced for either slot, `digitalPrecedenceTimer` is 0 after this
callback's sync update, and analog passthrough is enabled; the value of
`statusHoldCounter` plays no part.  When the three conditions hold the ring
buffer before playback is the buffer at entry with `processedInput` written
to it; otherwise it is the buffer as the digital step left it, which without
decoded voice is the buffer at entry.  In a callback without decoded voice
where `statusHoldCounter > 0`, `decoderStatus` and `activeSlot` keep their
previous values. -/
theorem analog_write_condition (st : AppState) (inp : CallbackInput) :
    ((inp.hasVoice = false ∧ (syncUpdate st inp.sync).digitalPrecedenceTimer = 0 ∧
          st.analogPassthrough = true) →
        (beforePlayback st inp).ringBuffer = st.ringBuffer.write (processedInput st inp)) ∧
      (¬ (inp.hasVoice = false ∧ (syncUpdate st inp.sync).digitalPrecedenceTimer = 0 ∧
          st.analogPassthrough = true) →
        (beforePlayback st inp).ringBuffer = (afterDigital st inp).ringBuffer) ∧
      (inp.hasVoice = false → (afterDigital st inp).ringBuffer = st.ringBuffer) ∧
      (inp.hasVoice = false → 0 < st.statusHoldCounter →
        (data_callback true st inp).2.decoderStatus = st.decoderStatus ∧
          (data_callback true st inp).2.activeSlot = st.activeSlot) ∧
      (data_callback true st inp).1 =
        ((beforePlayback st inp).ringBuffer.read inp.inBuffer.length).1 ∧
      (data_callback true st inp).2.ringBuffer =
        ((beforePlayback st inp).ringBuffer.read inp.inBuffer.length).2 := by
  refine ⟨?_, ?_, fun hv => (afterDigital_noVoice st inp hv).1, ?_, rfl, rfl⟩
  · rintro ⟨hv, ht, hp⟩
    rw [beforePlayback_ring, if_pos ⟨hv, hp, ht⟩, (afterDigital_noVoice st inp hv).1]
  · intro hn
    rw [beforePlayback_ring, if_neg (fun h => hn ⟨h.1, h.2.2, h.2.1⟩)]
  · intro hv hh
    refine ⟨?_, beforePlayback_slot_hold st inp hv hh⟩
    show (beforePlayback st inp).decoderStatus = st.decoderStatus
    rw [beforePlayback_status, hv]
    simp [hh]

theorem processedInput_holdState (x : ℚ) :
    processedInput holdState (quietInput [x]) = [x] := by
  simp [processedInput, inputProcessing, inputLoop, processSample, agcUpdate, holdState,
    AppState.initial, quietInput]

theorem analog_write_condition_witness :
    (beforePlayback holdState (quietInput [1 / 2])).ringBuffer =
      (holdState).ringBuffer.write [1 / 2] := by
  have h := (analog_write_condition holdState (quietInput [1 / 2])).1 ⟨rfl, rfl, rfl⟩
  rwa [processedInput_holdState] at h

/-- C4 as stated fails: in a callback without decoded voice and with
`statusHoldCounter = 5 > 0` (timer 0, passthrough enabled, ring buffer
empty) the analog sample `1/2` is written to the ring buffer and is what
the callback plays back. -/
theorem analog_written_during_voice_hold :
    (quietInput [1 / 2]).hasVoice = false ∧ 0 < (holdState).statusHoldCounter ∧
      (holdState).ringBuffer.available = 0 ∧
      (beforePlayback holdState (quietInput [1 / 2])).ringBuffer =
        (holdState).ringBuffer.write [1 / 2] ∧
      (beforePlayback holdState (quietInput [1 / 2])).ringBuffer.available = 1 ∧
      (data_callback true holdState (quietInput [1 / 2])).1 = [1 / 2] := by
  have hwf : ((holdState).ringBuffer).WF := RingBuffer.wf_init (by decide)
  have hr : (beforePlayback holdState (quietInput [1 / 2])).ringBuffer =
      (holdState).ringBuffer.write [1 / 2] := by
    rw [beforePlayback_ring, if_pos ⟨rfl, rfl, rfl⟩,
      (afterDigital_noVoice holdState (quietInput [1 / 2]) rfl).1, processedInput_holdState]
  have hav : ((holdState).ringBuffer.write [(1 / 2 : ℚ)]).available = 1 := by
    rw [RingBuffer.available_write hwf]
    rfl
  have hc : ((holdState).ringBuffer.write [(1 / 2 : ℚ)]).contents = [1 / 2] := by
    rw [RingBuffer.contents_write hwf]
    have e : (holdState).ringBuffer.contents = [] := RingBuffer.contents_init _
    rw [e]
    rfl
  refine ⟨rfl, by decide, rfl, hr, by rw [hr, hav], ?_⟩
  show ((beforePlayback holdState (quietInput [1 / 2])).ringBuffer.read 1).1 = [1 / 2]
  rw [hr, (RingBuffer.read_spec (RingBuffer.wf_write hwf _) 1 (by rw [hav])).1, hc]
  rfl

/-! ## Arbitration over a run of callbacks -/

theorem syncStatus_ne_decoding (sync : DSDSyncType) : syncStatus sync ≠ "DECODING VOICE!" := by
  cases sync <;> simp only [syncStatus] <;> decide

theorem syncStatus_mem (sync : DSDSyncType) : syncStatus sync ∈ syncStatuses := by
  cases sync <;> simp [syncStatus, syncStatuses]

/-- While the hold counter lasts, callbacks without decoded voice count it
down and leave the status text alone. -/
theorem runCallbacks_hold (qs : List CallbackInput) (hq : ∀ inp ∈ qs, inp.hasVoice = false)
    (s : AppState) (hlen : (qs.length : Int) ≤ s.statusHoldCounter) :
    (runCallbacks s qs).decoderStatus = s.decoderStatus ∧
      (runCallbacks s qs).statusHoldCounter = s.statusHoldCounter - qs.length := by
  induction qs generalizing s with
  | nil => simp [runCallbacks]
  | cons q qs ih =>
    have hv : q.hasVoice = false := hq q (List.mem_cons_self _ _)
    have hpos : s.statusHoldCounter > 0 := by
      simp only [List.length_cons, Nat.cast_add, Nat.cast_one] at hlen
      omega
    have e1 : (data_callback true s q).2.statusHoldCounter = s.statusHoldCounter - 1 := by
      show (beforePlayback s q).statusHoldCounter = _
      rw [beforePlayback_hold, hv]
      simp [hpos]
    have e2 : (data_callback true s q).2.decoderStatus = s.decoderStatus := by
      show (beforePlayback s q).decoderStatus = _
      rw [beforePlayback_status, hv]
      simp [hpos]
    have := ih (fun inp hi => hq inp (List.mem_cons_of_mem _ hi)) (data_callback true s q).2
      (by rw [e1]; simp only [List.length_cons, Nat.cast_add, Nat.cast_one] at hlen; omega)
    rw [runCallbacks_cons, this.1, this.2, e1, e2]
    refine ⟨rfl, ?_⟩
    simp only [List.length_cons, Nat.cast_add, Nat.cast_one]
    omega

/-- While the precedence timer lasts and no voice-hold is pending, callbacks
without sync and without decoded voice count the timer down. -/
theorem runCallbacks_quiet (qs : List CallbackInput)
    (hq : ∀ inp ∈ qs, inp.hasVoice = false ∧ inp.sync = DSDSyncNone)
    (s : AppState) (hlen : (qs.length : Int) ≤ s.digitalPrecedenceTimer)
    (hh : s.statusHoldCounter = 0) :
    (runCallbacks s qs).digitalPrecedenceTimer = s.digitalPrecedenceTimer - qs.length ∧
      (runCallbacks s qs).statusHoldCounter = 0 ∧
      (runCallbacks s qs).analogPassthrough = s.analogPassthrough := by
  induction qs generalizing s with
  | nil => simp [runCallbacks, hh]
  | cons q qs ih =>
    obtain ⟨hv, hs⟩ := hq q (List.mem_cons_self _ _)
    have hpos : s.digitalPrecedenceTimer > 0 := by
      simp only [List.length_cons, Nat.cast_add, Nat.cast_one] at hlen
      omega
    have e1 : (data_callback true s q).2.digitalPrecedenceTimer =
        s.digitalPrecedenceTimer - 1 := by
      show (beforePlayback s q).digitalPrecedenceTimer = _
      rw [beforePlayback_timer, syncUpdate_timer, hs]
      simp [hpos]
    have e2 : (data_callback true s q).2.statusHoldCounter = 0 := by
      show (beforePlayback s q).statusHoldCounter = _
      rw [beforePlayback_hold, hv, hh]
      simp
    have e3 : (data_callback true s q).2.analogPassthrough = s.analogPassthrough :=
      beforePlayback_passthrough s q
    have := ih (fun inp hi => hq inp (List.mem_cons_of_mem _ hi)) (data_callback true s q).2
      (by rw [e1]; simp only [List.length_cons, Nat.cast_add, Nat.cast_one] at hlen; omega) e2
    rw [runCallbacks_cons, this.1, this.2.1, this.2.2, e1, e3]
    refine ⟨?_, rfl, rfl⟩
    simp only [List.length_cons, Nat.cast_add, Nat.cast_one]
    omega

theorem status_after_voice (st : AppState) (first : CallbackInput)
    (hfirst : first.hasVoice = true) :
    (data_callback true st first).2.decoderStatus = "DECODING VOICE!" ∧
      (data_callback true st first).2.statusHoldCounter = 30 := by
  constructor
  · show (beforePlayback st first).decoderStatus = _
    rw [beforePlayback_status, if_pos hfirst]
  · show (beforePlayback st first).statusHoldCounter = _
    rw [beforePlayback_hold, if_pos hfirst]

/-- After a voice callback the status text is held through the next 30
callbacks without decoded voice, and the 31st such callback replaces it. -/
theorem status_hold_run (st : AppState) (first : CallbackInput) (rest : List CallbackInput)
    (hfirst : first.hasVoice = true) (hrest : ∀ inp ∈ rest, inp.hasVoice = false) :
    (∀ k, 1 ≤ k → k ≤ 31 →
        (runCallbacks st ((first :: rest).take k)).decoderStatus = "DECODING VOICE!") ∧
      (31 ≤ rest.length →
        (runCallbacks st ((first :: rest).take 32)).decoderStatus ≠ "DECODING VOICE!") := by
  obtain ⟨hs1, hh1⟩ := status_after_voice st first hfirst
  constructor
  · intro k hk1 hk2
    obtain ⟨j, rfl⟩ : ∃ j, k = j + 1 := ⟨k - 1, by omega⟩
    rw [List.take_succ_cons, runCallbacks_cons]
    have hj : ((rest.take j).length : Int) ≤ (data_callback true st first).2.statusHoldCounter := by
      rw [hh1, List.length_take]
      omega
    rw [(runCallbacks_hold (rest.take j) (fun inp hi => hrest inp (List.mem_of_mem_take hi))
      _ hj).1, hs1]
  · intro hlen
    have h30 : 30 < rest.length := by omega
    have e : (first :: rest).take 32 = first :: (rest.take 30 ++ [rest[30]]) := by
      rw [List.take_succ_cons, List.take_succ, List.getElem?_eq_getElem h30]
      rfl
    rw [e, runCallbacks_cons, runCallbacks_append]
    have hj : ((rest.take 30).length : Int) ≤
        (data_callback true st first).2.statusHoldCounter := by
      rw [hh1, List.length_take]
      omega
    have h := (runCallbacks_hold (rest.take 30)
      (fun inp hi => hrest inp (List.mem_of_mem_take hi)) _ hj).2
    rw [hh1, List.length_take, Nat.min_eq_left (by omega)] at h
    have hv : (rest[30]).hasVoice = false := hrest _ (List.getElem_mem _)
    show (beforePlayback _ rest[30]).decoderStatus ≠ _
    rw [beforePlayback_status, hv, h]
    simp only [Bool.false_eq_true, if_false, Nat.cast_ofNat, sub_self, gt_iff_lt, lt_self_iff_false]
    split_ifs
    · exact syncStatus_ne_decoding _
    · decide
    · decide

theorem quiet_replicate (n : Nat) (frame : List ℚ) :
    ∀ inp ∈ List.replicate n (quietInput frame),
      inp.hasVoice = false ∧ inp.sync = DSDSyncNone := by
  intro inp hi
  rw [List.eq_of_mem_replicate hi]
  exact ⟨rfl, rfl⟩

/-- C5 (amended): number the callbacks from 1.  If callback 1 delivers a
decoded-voice burst and callbacks 2, 3, ... deliver no decoded voice
(whatever their sync classification, so in particular with sync none and
the precedence timer at 0 throughout), then `decoderStatus` is
`"DECODING VOICE!"` after each of callbacks 1..31, and callback 32 reverts
it: after callback 32 it is no longer `"DECODING VOICE!"`. -/
theorem voice_hold_timing (st : AppState) (first : CallbackInput) (rest : List CallbackInput)
    (hfirst : first.hasVoice = true) (hrest : ∀ inp ∈ rest, inp.hasVoice = false) :
    (∀ k, 1 ≤ k → k ≤ 31 →
        (runCallbacks st ((first :: rest).take k)).decoderStatus = "DECODING VOICE!") ∧
      (31 ≤ rest.length →
        (runCallbacks st ((first :: rest).take 32)).decoderStatus ≠ "DECODING VOICE!") :=
  status_hold_run st first rest hfirst hrest

theorem voice_hold_timing_witness :
    (voiceInput [0] DSDSyncNone [1000]).hasVoice = true ∧
      (∀ inp ∈ List.replicate 31 (quietInput [0]), inp.hasVoice = false) ∧
      (runCallbacks (AppState.initial true false)
        ((voiceInput [0] DSDSyncNone [1000] :: List.replicate 31 (quietInput [0])).take
          32)).decoderStatus ≠ "DECODING VOICE!" :=
  ⟨rfl, fun inp hi => (quiet_replicate 31 [0] inp hi).1,
    (voice_hold_timing (AppState.initial true false) (voiceInput [0] DSDSyncNone [1000])
      (List.replicate 31 (quietInput [0])) rfl
      (fun inp hi => (quiet_replicate 31 [0] inp hi).1)).2 (by simp)⟩

/-- C5 as stated fails: from the initial state (timer 0), a voice callback
followed by 30 callbacks without decoded voice and with sync none still
shows `"DECODING VOICE!"` after callback 31. -/
theorem status_not_reverted_on_callback_31 :
    (AppState.initial true false).digitalPrecedenceTimer = 0 ∧
      (voiceInput [0] DSDSyncNone [1000]).hasVoice = true ∧
      (voiceInput [0] DSDSyncNone [1000]).sync = DSDSyncNone ∧
      (∀ inp ∈ List.replicate 30 (quietInput [0]),
        inp.hasVoice = false ∧ inp.sync = DSDSyncNone) ∧
      (voiceInput [0] DSDSyncNone [1000] :: List.replicate 30 (quietInput [0])).length = 31 ∧
      (runCallbacks (AppState.initial true false)
        (voiceInput [0] DSDSyncNone [1000] :: List.replicate 30 (quietInput [0]))).decoderStatus
        = "DECODING VOICE!" := by
  refine ⟨rfl, rfl, rfl, quiet_replicate 30 [0], by simp, ?_⟩
  have h := (status_hold_run (AppState.initial true false) (voiceInput [0] DSDSyncNone [1000])
    (List.replicate 30 (quietInput [0])) rfl
    (fun inp hi => (quiet_replicate 30 [0] inp hi).1)).1 31 (by decide) (by decide)
  rwa [List.take_of_length_le (by simp)] at h

/-- C6: number the callbacks from 1, with analog passthrough enabled and
`statusHoldCounter = 0`.  If callback 1 observes a non-none sync
classification, callbacks 2, 3, ... observe sync none, and no callback
delivers decoded voice, then on each of callbacks 1..20 no analog input is
written (the ring buffer before playback is the buffer at entry) and the
status is one of the `"SYNC: ..."` texts, and on callback 21 the conditioned
input is written to the ring buffer and the status becomes
`"ANALOG MONITOR (NFM)"`.  Callback `j + 2` is `rest[j]`, entered in the
state after `first :: rest.take j`. -/
theorem arbitration_hysteresis (st : AppState) (first : CallbackInput)
    (rest : List CallbackInput) (hp : st.analogPassthrough = true)
    (hh : st.statusHoldCounter = 0) (hs : first.sync ≠ DSDSyncNone)
    (hv : first.hasVoice = false)
    (hrest : ∀ inp ∈ rest, inp.hasVoice = false ∧ inp.sync = DSDSyncNone) :
    ((beforePlayback st first).ringBuffer = st.ringBuffer ∧
        (data_callback true st first).2.decoderStatus ∈ syncStatuses) ∧
      (∀ j (hj : j < rest.length), j + 2 ≤ 20 →
        (beforePlayback (runCallbacks st (first :: rest.take j)) rest[j]).ringBuffer =
            (runCallbacks st (first :: rest.take j)).ringBuffer ∧
          (data_callback true (runCallbacks st (first :: rest.take j)) rest[j]).2.decoderStatus
            ∈ syncStatuses) ∧
      (∀ (hj : 19 < rest.length),
        (beforePlayback (runCallbacks st (first :: rest.take 19)) rest[19]).ringBuffer =
            (runCallbacks st (first :: rest.take 19)).ringBuffer.write
              (processedInput (runCallbacks st (first :: rest.take 19)) rest[19]) ∧
          (data_callback true (runCallbacks st (first :: rest.take 19)) rest[19]).2.decoderStatus
            = "ANALOG MONITOR (NFM)") := by
  have t1 : (data_callback true st first).2.digitalPrecedenceTimer = 20 := by
    show (beforePlayback st first).digitalPrecedenceTimer = 20
    rw [beforePlayback_timer, syncUpdate_timer, if_pos hs]
  have h1 : (data_callback true st first).2.statusHoldCounter = 0 := by
    show (beforePlayback st first).statusHoldCounter = 0
    rw [beforePlayback_hold, hv, hh]
    simp
  have p1 : (data_callback true st first).2.analogPassthrough = true :=
    (beforePlayback_passthrough st first).trans hp
  have run : ∀ j, j ≤ 19 → j < rest.length →
      (runCallbacks st (first :: rest.take j)).digitalPrecedenceTimer = 20 - (j : Int) ∧
        (runCallbacks st (first :: rest.take j)).statusHoldCounter = 0 ∧
        (runCallbacks st (first :: rest.take j)).analogPassthrough = true := by
    intro j hj hjl
    have hlen : (rest.take j).length = j := by
      rw [List.length_take]
      omega
    have := runCallbacks_quiet (rest.take j)
      (fun inp hi => hrest inp (List.mem_of_mem_take hi)) (data_callback true st first).2
      (by rw [t1, hlen]; omega) h1
    rw [hlen, t1, p1] at this
    exact this
  refine ⟨⟨?_, ?_⟩, ?_, ?_⟩
  · have ht : (syncUpdate st first.sync).digitalPrecedenceTimer = 20 := by
      rw [syncUpdate_timer, if_pos hs]
    rw [beforePlayback_ring, if_neg (by rw [ht]; simp), (afterDigital_noVoice st first hv).1]
  · show (beforePlayback st first).decoderStatus ∈ syncStatuses
    rw [beforePlayback_status, syncUpdate_timer, if_pos hs, hv, hh]
    simp only [Bool.false_eq_true, if_false, gt_iff_lt, lt_self_iff_false]
    rw [if_pos (by decide)]
    exact syncStatus_mem _
  · intro j hj hj20
    obtain ⟨rt, rh, rp⟩ := run j (by omega) hj
    obtain ⟨qv, qs⟩ := hrest rest[j] (List.getElem_mem _)
    have ht : (syncUpdate (runCallbacks st (first :: rest.take j)) rest[j].sync).digitalPrecedenceTimer
        = 19 - (j : Int) := by
      rw [syncUpdate_timer, qs, rt]
      simp only [ne_eq, not_true_eq_false, if_false]
      rw [if_pos (by omega)]
      omega
    constructor
    · rw [beforePlayback_ring, if_neg (by rw [ht]; intro h; omega), (afterDigital_noVoice _ _ qv).1]
    · show (beforePlayback _ rest[j]).decoderStatus ∈ syncStatuses
      rw [beforePlayback_status, ht, qv, rh]
      simp only [Bool.false_eq_true, if_false, gt_iff_lt, lt_self_iff_false]
      rw [if_pos (by omega)]
      exact syncStatus_mem _
  · intro hj
    obtain ⟨rt, rh, rp⟩ := run 19 (by omega) hj
    obtain ⟨qv, qs⟩ := hrest rest[19] (List.getElem_mem _)
    have ht : (syncUpdate (runCallbacks st (first :: rest.take 19))
        rest[19].sync).digitalPrecedenceTimer = 0 := by
      rw [syncUpdate_timer, qs, rt]
      simp
    constructor
    · rw [beforePlayback_ring, if_pos ⟨qv, rp, ht⟩, (afterDigital_noVoice _ _ qv).1]
    · show (beforePlayback _ rest[19]).decoderStatus = _
      rw [beforePlayback_status, ht, qv, rh, rp]
      simp

theorem arbitration_hysteresis_witness :
    (AppState.initial false true).analogPassthrough = true ∧
      (AppState.initial false true).statusHoldCounter = 0 ∧
      (syncInput [1 / 4] DSDSyncDMRDataP).sync ≠ DSDSyncNone ∧
      (syncInput [1 / 4] DSDSyncDMRDataP).hasVoice = false ∧
      (∀ inp ∈ List.replicate 20 (quietInput [1 / 4]),
        inp.hasVoice = false ∧ inp.sync = DSDSyncNone) ∧
      (data_callback true
        (runCallbacks (AppState.initial false true)
          (syncInput [1 / 4] DSDSyncDMRDataP :: (List.replicate 20 (quietInput [1 / 4])).take 19))
        (quietInput [1 / 4])).2.decoderStatus = "ANALOG MONITOR (NFM)" := by
  have h := ((arbitration_hysteresis (AppState.initial false true)
    (syncInput [1 / 4] DSDSyncDMRDataP) (List.replicate 20 (quietInput [1 / 4])) rfl rfl
    (by decide) rfl (quiet_replicate 20 [1 / 4])).2.2 (by simp)).2
  rw [List.getElem_replicate] at h
  exact ⟨rfl, rfl, by decide, rfl, quiet_replicate 20 [1 / 4], h⟩

/-! ## Voice interpolator -/

theorem targetSample_eq_clamp (r : Int) :
    targetSample r = clampUnit (3.5 * (r : ℚ) / 32768) := by
  unfold targetSample clampUnit
  simp only
  have e : (r : ℚ) / 32768 * 3.5 = 3.5 * (r : ℚ) / 32768 := by ring
  rw [e]
  by_cases h1 : 3.5 * (r : ℚ) / 32768 > 1
  · rw [if_pos h1, if_neg (by norm_num), min_eq_left (le_of_lt h1), max_eq_right (by norm_num)]
  · rw [if_neg h1]
    have h1' : 3.5 * (r : ℚ) / 32768 ≤ 1 := not_lt.mp h1
    rw [min_eq_right h1']
    by_cases h2 : 3.5 * (r : ℚ) / 32768 < -1
    · rw [if_pos h2, max_eq_left (le_of_lt h2)]
    · rw [if_neg h2, max_eq_right (not_lt.mp h2)]

theorem clampUnit_mem (x : ℚ) : -1 ≤ clampUnit x ∧ clampUnit x ≤ 1 := by
  unfold clampUnit
  exact ⟨le_max_left _ _, max_le (by norm_num) (min_le_left _ _)⟩

theorem smoothRamp_eq (rb : RingBuffer ℚ) (L T : ℚ) :
    smoothRamp rb L T = rb.write (rampValues L T) := by
  unfold smoothRamp rampValues
  simp only [List.foldl_cons, List.foldl_nil, List.map_cons, List.map_nil,
    ← RingBuffer.write_append, List.cons_append, List.nil_append]
  congr 1
  simp only [List.cons.injEq, and_true]
  refine ⟨?_, ?_, ?_, ?_, ?_, ?_⟩ <;> push_cast <;> ring

theorem processSmooth_cons (rb : RingBuffer ℚ) (r : Int) (rs : List Int) (L : ℚ) :
    processSmooth rb (r :: rs) L =
      processSmooth (smoothRamp rb L (targetSample r)) rs (targetSample r) := rfl

theorem processSmooth_eq (rb : RingBuffer ℚ) (raw : List Int) (L : ℚ) :
    (processSmooth rb raw L).1 = rb.write (burstValues raw L) := by
  induction raw generalizing rb L with
  | nil => rfl
  | cons r rs ih =>
    rw [processSmooth_cons, ih, smoothRamp_eq, burstValues, RingBuffer.write_append,
      targetSample_eq_clamp]

theorem processSmooth_last (rb : RingBuffer ℚ) (raw : List Int) (L : ℚ) (h : raw ≠ []) :
    (processSmooth rb raw L).2 = targetSample (raw.getLast h) := by
  induction raw generalizing rb L with
  | nil => exact absurd rfl h
  | cons r rs ih =>
    cases rs with
    | nil => rfl
    | cons r' rs' =>
      rw [processSmooth_cons, ih _ _ (List.cons_ne_nil _ _), List.getLast_cons_cons]

theorem processSmooth_range (rb : RingBuffer ℚ) (raw : List Int) (L : ℚ)
    (h : raw ≠ [] ∨ (-1 ≤ L ∧ L ≤ 1)) :
    -1 ≤ (processSmooth rb raw L).2 ∧ (processSmooth rb raw L).2 ≤ 1 := by
  by_cases hr : raw = []
  · subst hr
    rcases h with h | h
    · exact absurd rfl h
    · exact h
  · rw [processSmooth_last rb raw L hr, targetSample_eq_clamp]
    exact clampUnit_mem _

theorem length_burstValues (raw : List Int) (L : ℚ) :
    (burstValues raw L).length = 6 * raw.length := by
  induction raw generalizing L with
  | nil => rfl
  | cons r rs ih =>
    rw [burstValues, List.length_append, ih, List.length_cons]
    simp only [rampValues, List.map_cons, List.map_nil, List.length_cons, List.length_nil]
    omega

theorem processSmooth_full (rb : RingBuffer ℚ) (raw : List Int) (L : ℚ) :
    processSmooth rb raw L = (rb.write (burstValues raw L), burstCarry raw L) := by
  induction raw generalizing rb L with
  | nil => rfl
  | cons r rs ih =>
    rw [processSmooth_cons, ih, smoothRamp_eq, targetSample_eq_clamp, burstValues, burstCarry,
      RingBuffer.write_append]

theorem burstCarry_last (raw : List Int) (L : ℚ) (h : raw ≠ []) :
    burstCarry raw L = clampUnit (3.5 * ((raw.getLast h : Int) : ℚ) / 32768) := by
  induction raw generalizing L with
  | nil => exact absurd rfl h
  | cons r rs ih =>
    cases rs with
    | nil => rfl
    | cons r' rs' =>
      rw [burstCarry, ih _ (List.cons_ne_nil _ _), List.getLast_cons_cons]

theorem digitalSlot1_spec (st : AppState) (audioS1 : Option (List Int)) :
    digitalSlot1 st audioS1 =
      { st with
        ringBuffer := st.ringBuffer.write (burstValues (burstOf audioS1) st.lastSampleS1)
        lastSampleS1 := burstCarry (burstOf audioS1) st.lastSampleS1
        activeSlot := if hasBurst audioS1 = true then "SLOT 1 / CH 1" else st.activeSlot } := by
  match audioS1 with
  | none => rfl
  | some [] => rfl
  | some (r :: rs) =>
    simp only [digitalSlot1, burstOf, Option.getD_some, hasBurst, if_true]
    rw [processSmooth_full]

theorem digitalSlot2_spec (st : AppState) (audioS2 : Option (List Int)) :
    digitalSlot2 st audioS2 =
      { st with
        ringBuffer := st.ringBuffer.write (burstValues (burstOf audioS2) st.lastSampleS2)
        lastSampleS2 := burstCarry (burstOf audioS2) st.lastSampleS2
        activeSlot := if hasBurst audioS2 = true then "SLOT 2" else st.activeSlot } := by
  match audioS2 with
  | none => rfl
  | some [] => rfl
  | some (r :: rs) =>
    simp only [digitalSlot2, burstOf, Option.getD_some, hasBurst, if_true]
    rw [processSmooth_full]

theorem digitalAudio_spec (st : AppState) (inp : CallbackInput) :
    digitalAudio st inp =
      { st with
        ringBuffer :=
          (st.ringBuffer.write (burstValues (burstOf inp.audioS1) st.lastSampleS1)).write
            (burstValues (burstOf inp.audioS2) st.lastSampleS2)
        lastSampleS1 := burstCarry (burstOf inp.audioS1) st.lastSampleS1
        lastSampleS2 := burstCarry (burstOf inp.audioS2) st.lastSampleS2
        activeSlot :=
          if hasBurst inp.audioS2 = true then "SLOT 2"
          else if hasBurst inp.audioS1 = true then "SLOT 1 / CH 1"
          else st.activeSlot } := by
  unfold digitalAudio
  rw [digitalSlot2_spec, digitalSlot1_spec]

theorem burstCarry_range (raw : List Int) (L : ℚ) (h : raw ≠ [] ∨ (-1 ≤ L ∧ L ≤ 1)) :
    -1 ≤ burstCarry raw L ∧ burstCarry raw L ≤ 1 := by
  by_cases hr : raw = []
  · subst hr
    rcases h with h | h
    · exact absurd rfl h
    · exact h
  · rw [burstCarry_last raw L hr]
    exact clampUnit_mem _

theorem callback_carry (s : AppState) (inp : CallbackInput) :
    (data_callback true s inp).2.lastSampleS1 = burstCarry (burstOf inp.audioS1) s.lastSampleS1 ∧
      (data_callback true s inp).2.lastSampleS2 =
        burstCarry (burstOf inp.audioS2) s.lastSampleS2 := by
  have hin := inputProcessing_same s inp.inBuffer
  have e1 : (data_callback true s inp).2.lastSampleS1 = (afterDigital s inp).lastSampleS1 := by
    show (statusLogic (analogPassthroughStep _ _ _) _ _).lastSampleS1 = _
    unfold statusLogic analogPassthroughStep
    split_ifs <;> rfl
  have e2 : (data_callback true s inp).2.lastSampleS2 = (afterDigital s inp).lastSampleS2 := by
    show (statusLogic (analogPassthroughStep _ _ _) _ _).lastSampleS2 = _
    unfold statusLogic analogPassthroughStep
    split_ifs <;> rfl
  have s1 : (syncUpdate (inputProcessing s inp.inBuffer).1 inp.sync).lastSampleS1 =
      s.lastSampleS1 := by
    unfold syncUpdate
    split_ifs <;> exact hin.lastSampleS1
  have s2 : (syncUpdate (inputProcessing s inp.inBuffer).1 inp.sync).lastSampleS2 =
      s.lastSampleS2 := by
    unfold syncUpdate
    split_ifs <;> exact hin.lastSampleS2
  rw [e1, e2]
  unfold afterDigital
  rw [digitalAudio_spec]
  exact ⟨by rw [← s1], by rw [← s2]⟩

/-- The carried samples are within `[-1, 1]` in every state the program
reaches from a state where they are. -/
theorem carried_range (st : AppState) (events : List Event)
    (h1 : -1 ≤ st.lastSampleS1 ∧ st.lastSampleS1 ≤ 1)
    (h2 : -1 ≤ st.lastSampleS2 ∧ st.lastSampleS2 ≤ 1) :
    (-1 ≤ (runEvents st events).lastSampleS1 ∧ (runEvents st events).lastSampleS1 ≤ 1) ∧
      (-1 ≤ (runEvents st events).lastSampleS2 ∧ (runEvents st events).lastSampleS2 ≤ 1) := by
  induction events generalizing st with
  | nil => exact ⟨h1, h2⟩
  | cons ev evs ih =>
    have e : runEvents st (ev :: evs) = runEvents (stepEvent st ev) evs := rfl
    rw [e]
    cases ev with
    | gui edit => exact ih (applyGui st edit) h1 h2
    | callback lk inp =>
      cases lk with
      | false => exact ih _ h1 h2
      | true =>
        apply ih
        · show -1 ≤ (data_callback true st inp).2.lastSampleS1 ∧
            (data_callback true st inp).2.lastSampleS1 ≤ 1
          rw [(callback_carry st inp).1]
          exact burstCarry_range _ _ (Or.inr h1)
        · show -1 ≤ (data_callback true st inp).2.lastSampleS2 ∧
            (data_callback true st inp).2.lastSampleS2 ≤ 1
          rw [(callback_carry st inp).2]
          exact burstCarry_range _ _ (Or.inr h2)

/-- C7 (exact arithmetic): for a decoded sample `r` and carried sample
`L`, with `T = clamp(3.5 * r / 32768, -1, 1)`, `processSmooth` writes to the
ring buffer exactly the six values `L + (T - L) * u / 6`, `u = 1..6`, in
that order, the sixth being `T`, and carries `T` on.  A burst `raw` is
written as one such ramp per sample, each starting from the target of the
sample before it, `6 * raw.length` samples in all (appended to the unread
samples, of which the most recent `size` are kept), and the carried sample
afterwards is the target of the last sample of the burst, hence in
`[-1, 1]`; an empty burst writes nothing and carries `L` on.  Step 3 does
exactly this for slot 1 with `lastSampleS1` and then for slot 2 with
`lastSampleS2`, touching nothing else but `activeSlot`, and every callback
that acquires the lock keeps both carried samples in `[-1, 1]` once they
are, so they are in `[-1, 1]` in every state the program reaches.
For `L = 0` and `T = 1` (e.g. `r = 32767`) the six values are
`1/6, 2/6, 3/6, 4/6, 5/6, 1`. -/
theorem interpolation_ramp (rb : RingBuffer ℚ) (st : AppState) (inp : CallbackInput) (r : Int)
    (raw : List Int) (L : ℚ) :
    processSmooth rb [r] L =
        (rb.write (rampValues L (clampUnit (3.5 * (r : ℚ) / 32768))),
          clampUnit (3.5 * (r : ℚ) / 32768)) ∧
      (∀ T : ℚ, rampValues L T =
        [L + (T - L) * 1 / 6, L + (T - L) * 2 / 6, L + (T - L) * 3 / 6, L + (T - L) * 4 / 6,
          L + (T - L) * 5 / 6, L + (T - L) * 6 / 6] ∧ L + (T - L) * 6 / 6 = T) ∧
      processSmooth rb raw L = (rb.write (burstValues raw L), burstCarry raw L) ∧
      processSmooth rb (r :: raw) L =
        processSmooth (rb.write (rampValues L (clampUnit (3.5 * (r : ℚ) / 32768)))) raw
          (clampUnit (3.5 * (r : ℚ) / 32768)) ∧
      (processSmooth rb raw L).1 = rb.write (burstValues raw L) ∧
      (burstValues raw L).length = 6 * raw.length ∧
      (rb.WF → (processSmooth rb raw L).1.contents =
        (rb.contents ++ burstValues raw L).drop (rb.available + 6 * raw.length - rb.size)) ∧
      (∀ h : raw ≠ [], (processSmooth rb raw L).2 =
        clampUnit (3.5 * ((raw.getLast h : Int) : ℚ) / 32768)) ∧
      (processSmooth rb [] L).2 = L ∧
      ((raw ≠ [] ∨ (-1 ≤ L ∧ L ≤ 1)) →
        -1 ≤ (processSmooth rb raw L).2 ∧ (processSmooth rb raw L).2 ≤ 1) ∧
      ((digitalSlot1 st (some (r :: raw))).ringBuffer =
          st.ringBuffer.write (burstValues (r :: raw) st.lastSampleS1) ∧
        (digitalSlot1 st (some (r :: raw))).lastSampleS1 =
          clampUnit (3.5 * (((r :: raw).getLast (List.cons_ne_nil _ _) : Int) : ℚ) / 32768) ∧
        -1 ≤ (digitalSlot1 st (some (r :: raw))).lastSampleS1 ∧
        (digitalSlot1 st (some (r :: raw))).lastSampleS1 ≤ 1) ∧
      ((digitalSlot2 st (some (r :: raw))).ringBuffer =
          st.ringBuffer.write (burstValues (r :: raw) st.lastSampleS2) ∧
        (digitalSlot2 st (some (r :: raw))).lastSampleS2 =
          clampUnit (3.5 * (((r :: raw).getLast (List.cons_ne_nil _ _) : Int) : ℚ) / 32768) ∧
        -1 ≤ (digitalSlot2 st (some (r :: raw))).lastSampleS2 ∧
        (digitalSlot2 st (some (r :: raw))).lastSampleS2 ≤ 1) ∧
      digitalAudio st inp =
        { st with
          ringBuffer :=
            (st.ringBuffer.write (burstValues (burstOf inp.audioS1) st.lastSampleS1)).write
              (burstValues (burstOf inp.audioS2) st.lastSampleS2)
          lastSampleS1 := burstCarry (burstOf inp.audioS1) st.lastSampleS1
          lastSampleS2 := burstCarry (burstOf inp.audioS2) st.lastSampleS2
          activeSlot :=
            if hasBurst inp.audioS2 = true then "SLOT 2"
            else if hasBurst inp.audioS1 = true then "SLOT 1 / CH 1"
            else st.activeSlot } ∧
      ((data_callback true st inp).2.lastSampleS1 =
          burstCarry (burstOf inp.audioS1) st.lastSampleS1 ∧
        (data_callback true st inp).2.lastSampleS2 =
          burstCarry (burstOf inp.audioS2) st.lastSampleS2) ∧
      ((-1 ≤ st.lastSampleS1 ∧ st.lastSampleS1 ≤ 1) → (-1 ≤ st.lastSampleS2 ∧ st.lastSampleS2 ≤ 1) →
        (-1 ≤ (data_callback true st inp).2.lastSampleS1 ∧
          (data_callback true st inp).2.lastSampleS1 ≤ 1) ∧
        (-1 ≤ (data_callback true st inp).2.lastSampleS2 ∧
          (data_callback true st inp).2.lastSampleS2 ≤ 1)) ∧
      (∀ (autoGain analogPassthrough : Bool) (events : List Event),
        (-1 ≤ (runEvents (AppState.initial autoGain analogPassthrough) events).lastSampleS1 ∧
          (runEvents (AppState.initial autoGain analogPassthrough) events).lastSampleS1 ≤ 1) ∧
        (-1 ≤ (runEvents (AppState.initial autoGain analogPassthrough) events).lastSampleS2 ∧
          (runEvents (AppState.initial autoGain analogPassthrough) events).lastSampleS2 ≤ 1)) ∧
      processSmooth rb [32767] 0 = (rb.write [1 / 6, 2 / 6, 3 / 6, 4 / 6, 5 / 6, 1], 1) := by
  have single : ∀ (r : Int) (L : ℚ), processSmooth rb [r] L =
      (rb.write (rampValues L (clampUnit (3.5 * (r : ℚ) / 32768))),
        clampUnit (3.5 * (r : ℚ) / 32768)) := by
    intro r L
    have e : processSmooth rb [r] L = (smoothRamp rb L (targetSample r), targetSample r) := rfl
    rw [e, smoothRamp_eq, targetSample_eq_clamp]
  refine ⟨single r L, fun T => ⟨rfl, by ring⟩, processSmooth_full rb raw L, ?_,
    processSmooth_eq rb raw L, length_burstValues raw L, ?_, ?_, rfl,
    processSmooth_range rb raw L, ⟨?_, ?_, ?_⟩, ⟨?_, ?_, ?_⟩, digitalAudio_spec st inp,
    callback_carry st inp, ?_, ?_, ?_⟩
  · rw [processSmooth_cons, smoothRamp_eq, targetSample_eq_clamp]
  · intro hwf
    rw [processSmooth_eq, RingBuffer.contents_write hwf, length_burstValues]
  · intro h
    rw [processSmooth_last rb raw L h, targetSample_eq_clamp]
  · exact processSmooth_eq st.ringBuffer (r :: raw) st.lastSampleS1
  · show (processSmooth st.ringBuffer (r :: raw) st.lastSampleS1).2 = _
    rw [processSmooth_last _ _ _ (List.cons_ne_nil _ _), targetSample_eq_clamp]
  · exact processSmooth_range st.ringBuffer (r :: raw) st.lastSampleS1
      (Or.inl (List.cons_ne_nil _ _))
  · exact processSmooth_eq st.ringBuffer (r :: raw) st.lastSampleS2
  · show (processSmooth st.ringBuffer (r :: raw) st.lastSampleS2).2 = _
    rw [processSmooth_last _ _ _ (List.cons_ne_nil _ _), targetSample_eq_clamp]
  · exact processSmooth_range st.ringBuffer (r :: raw) st.lastSampleS2
      (Or.inl (List.cons_ne_nil _ _))
  · intro h1 h2
    rw [(callback_carry st inp).1, (callback_carry st inp).2]
    exact ⟨burstCarry_range _ _ (Or.inr h1), burstCarry_range _ _ (Or.inr h2)⟩
  · intro autoGain analogPassthrough events
    exact carried_range (AppState.initial autoGain analogPassthrough) events
      ⟨by show (-1 : ℚ) ≤ 0; norm_num, by show (0 : ℚ) ≤ 1; norm_num⟩
      ⟨by show (-1 : ℚ) ≤ 0; norm_num, by show (0 : ℚ) ≤ 1; norm_num⟩
  · rw [single]
    have hT : clampUnit (3.5 * ((32767 : Int) : ℚ) / 32768) = 1 := by
      unfold clampUnit
      norm_num
    rw [hT]
    congr 2
    simp only [rampValues, List.map_cons, List.map_nil]
    norm_num

theorem interpolation_ramp_witness :
    (([9363, 9363] : List Int) ≠ [] ∨ (-1 ≤ (5 : ℚ) ∧ (5 : ℚ) ≤ 1)) ∧
      (-1 ≤ (processSmooth (RingBuffer.init 8) [9363, 9363] 5).2 ∧
        (processSmooth (RingBuffer.init 8) [9363, 9363] 5).2 ≤ 1) ∧
      (processSmooth (RingBuffer.init 8) [9363, 9363] 0).2 = 1 := by
  have h := interpolation_ramp (RingBuffer.init 8) (AppState.initial true false)
    (quietInput []) 0 [9363, 9363]
  refine ⟨Or.inl (by decide), (h 5).2.2.2.2.2.2.2.2.2.1 (Or.inl (by decide)), ?_⟩
  rw [(h 0).2.2.2.2.2.2.2.1 (by decide)]
  unfold clampUnit
  norm_num

/-! ## Automatic gain control -/

theorem processSample_agc (st : AppState) (i : Nat) (x : ℚ) :
    (processSample st i x).1.inputGain = (agcUpdate st x).inputGain ∧
      (processSample st i x).1.currentPeak = (agcUpdate st x).currentPeak := by
  unfold processSample
  simp only
  split_ifs <;> exact ⟨rfl, rfl⟩

theorem agcUpdate_on (st : AppState) (x : ℚ) (ha : st.autoGain = true) :
    (agcUpdate st x).currentPeak = max |x| (st.currentPeak * 0.999) ∧
      (agcUpdate st x).inputGain =
        if max |x| (st.currentPeak * 0.999) > 0.001 then
          st.inputGain * 0.95 + 0.8 / max |x| (st.currentPeak * 0.999) * 0.05
        else st.inputGain := by
  have hm : (if |x| > st.currentPeak * 0.999 then |x| else st.currentPeak * 0.999) =
      max |x| (st.currentPeak * 0.999) := by
    split_ifs with h
    · exact (max_eq_left (le_of_lt h)).symm
    · exact (max_eq_right (not_lt.mp h)).symm
  unfold agcUpdate
  simp only [ha, if_true, hm]
  split_ifs <;> exact ⟨rfl, rfl⟩

theorem blend_le (g p M : ℚ) (hp : p > 0.001) (h1 : g ≤ M) (h2 : 800 ≤ M) :
    g * 0.95 + 0.8 / p * 0.05 ≤ M := by
  have hp' : (1 / 1000 : ℚ) < p := by norm_num at hp; exact hp
  have hpos : (0 : ℚ) < p := lt_trans (by norm_num) hp'
  have ht : 0.8 / p ≤ 800 := by
    rw [div_le_iff₀ hpos]
    norm_num
    linarith
  norm_num at ht ⊢
  linarith

theorem agcUpdate_gain_le (st : AppState) (x M : ℚ) (ha : st.autoGain = true)
    (h1 : st.inputGain ≤ M) (h2 : 800 ≤ M) : (agcUpdate st x).inputGain ≤ M := by
  rw [(agcUpdate_on st x ha).2]
  split_ifs with hp
  · exact blend_le _ _ _ hp h1 h2
  · exact h1

theorem inputLoop_gain_le (st : AppState) (i : Nat) (xs : List ℚ) (M : ℚ)
    (ha : st.autoGain = true) (h1 : st.inputGain ≤ M) (h2 : 800 ≤ M) :
    (inputLoop st i xs).1.inputGain ≤ M := by
  induction xs generalizing st i with
  | nil => exact h1
  | cons x xs ih =>
    simp only [inputLoop]
    apply ih
    · exact (processSample_same st i x).autoGain.trans ha
    · rw [(processSample_agc st i x).1]
      exact agcUpdate_gain_le st x M ha h1 h2

theorem beforePlayback_gain (st : AppState) (inp : CallbackInput) :
    (beforePlayback st inp).inputGain = (inputProcessing st inp.inBuffer).1.inputGain := by
  unfold beforePlayback afterDigital
  rw [(statusLogic_misc _ _ _).2.2.2.2.1, (analogPassthroughStep_misc _ _ _).2.2.2.2.2.2.1,
    (digitalAudio_misc _ _).2.2.2.2.2.1, (syncUpdate_misc _ _).2.2.2.2.2.2.1]

theorem runCallbacks_gain_le (st : AppState) (inps : List CallbackInput) (M : ℚ)
    (ha : st.autoGain = true) (h1 : st.inputGain ≤ M) (h2 : 800 ≤ M) :
    (runCallbacks st inps).inputGain ≤ M := by
  induction inps generalizing st with
  | nil => exact h1
  | cons inp inps ih =>
    rw [runCallbacks_cons]
    apply ih
    · exact (beforePlayback_autoGain st inp).trans ha
    · show (beforePlayback st inp).inputGain ≤ M
      rw [beforePlayback_gain]
      exact inputLoop_gain_le st 0 inp.inBuffer M ha h1 h2

/-- C8 (exact arithmetic): with auto gain enabled, for every sample
sequence of a frame and for every run of callbacks (silence included),
`inputGain` never exceeds `max(g0, 0.8 / 0.001) = max(g0, 800)`, `g0` being
the initial gain; a sample blends the target gain `0.8 / currentPeak` into
`inputGain` only when the updated `currentPeak` is above `0.001`, and leaves
`inputGain` unchanged when it is `≤ 0.001`. -/
theorem agc_gain_bounded (st : AppState) (xs : List ℚ) (inps : List CallbackInput) (x : ℚ)
    (hauto : st.autoGain = true) :
    (inputProcessing st xs).1.inputGain ≤ max st.inputGain 800 ∧
      (runCallbacks st inps).inputGain ≤ max st.inputGain 800 ∧
      (0.8 : ℚ) / 0.001 = 800 ∧
      ((agcUpdate st x).currentPeak ≤ 0.001 → (agcUpdate st x).inputGain = st.inputGain) ∧
      ((agcUpdate st x).currentPeak > 0.001 →
        (agcUpdate st x).inputGain =
          st.inputGain * 0.95 + 0.8 / (agcUpdate st x).currentPeak * 0.05) := by
  refine ⟨inputLoop_gain_le st 0 xs _ hauto (le_max_left _ _) (le_max_right _ _),
    runCallbacks_gain_le st inps _ hauto (le_max_left _ _) (le_max_right _ _), by norm_num,
    ?_, ?_⟩
  · intro h
    rw [(agcUpdate_on st x hauto).1] at h
    rw [(agcUpdate_on st x hauto).2, if_neg (not_lt.mpr h)]
  · intro h
    rw [(agcUpdate_on st x hauto).1] at h ⊢
    rw [(agcUpdate_on st x hauto).2, if_pos h]

theorem agc_gain_bounded_witness :
    (AppState.initial true false).autoGain = true ∧
      (inputProcessing (AppState.initial true false) [0, 0, 0]).1.inputGain ≤
        max (AppState.initial true false).inputGain 800 :=
  ⟨rfl, (agc_gain_bounded (AppState.initial true false) [0, 0, 0] [] 0 rfl).1⟩

theorem agcUpdate_const (st : AppState) (x A : ℚ) (ha : st.autoGain = true)
    (hA : A > 0.001) (hpk : st.currentPeak ≤ A) (hx : |x| = A) :
    (agcUpdate st x).currentPeak = A ∧
      (agcUpdate st x).inputGain = 0.95 * st.inputGain + 0.05 * 0.8 / A := by
  have hA' : (1 / 1000 : ℚ) < A := by norm_num at hA; exact hA
  have hm : max |x| (st.currentPeak * 0.999) = A := by
    rw [hx]
    apply max_eq_left
    norm_num
    linarith
  obtain ⟨h1, h2⟩ := agcUpdate_on st x ha
  rw [hm] at h1 h2
  refine ⟨h1, ?_⟩
  rw [h2, if_pos hA]
  ring

theorem inputLoop_const (st : AppState) (i : Nat) (xs : List ℚ) (A : ℚ)
    (ha : st.autoGain = true) (hA : A > 0.001) (hpk : st.currentPeak ≤ A)
    (hxs : ∀ x ∈ xs, |x| = A) :
    (xs ≠ [] → (inputLoop st i xs).1.currentPeak = A) ∧
      (inputLoop st i xs).1.currentPeak ≤ A ∧
      (inputLoop st i xs).1.inputGain - 0.8 / A =
        0.95 ^ xs.length * (st.inputGain - 0.8 / A) := by
  induction xs generalizing st i with
  | nil => exact ⟨fun h => absurd rfl h, hpk, by simp [inputLoop]⟩
  | cons x xs ih =>
    obtain ⟨c1, c2⟩ := agcUpdate_const st x A ha hA hpk (hxs x (List.mem_cons_self _ _))
    obtain ⟨p1, p2⟩ := processSample_agc st i x
    have ha1 : (processSample st i x).1.autoGain = true :=
      (processSample_same st i x).autoGain.trans ha
    have hpk1 : (processSample st i x).1.currentPeak = A := p2.trans c1
    obtain ⟨i1, i2, i3⟩ := ih (processSample st i x).1 (i + 1) ha1 (le_of_eq hpk1)
      (fun y hy => hxs y (List.mem_cons_of_mem _ hy))
    simp only [inputLoop]
    refine ⟨fun _ => ?_, i2, ?_⟩
    · by_cases hnil : xs = []
      · subst hnil
        exact hpk1
      · exact i1 hnil
    · rw [i3, p1, c2, List.length_cons, pow_succ]
      ring

/-- C9 (exact arithmetic): with auto gain enabled, for samples of constant
absolute amplitude `A > 0.001` and a starting `currentPeak ≤ A`:
`currentPeak = A` after every sample; a sample maps `inputGain` to
`0.95 * inputGain + 0.05 * 0.8 / A`; after the `n` samples `xs` the signed
distance to `0.8 / A` is `0.95 ^ n` times the initial one, hence the absolute
distance too, and the gain stays on its side of `0.8 / A`; and the gain
converges to `0.8 / A`: for every `ε > 0` all long enough such sequences end
with the gain within `ε` of `0.8 / A`. -/
theorem agc_convergence (st : AppState) (A : ℚ) (xs : List ℚ) (hauto : st.autoGain = true)
    (hA : A > 0.001) (hpk : st.currentPeak ≤ A) (hxs : ∀ x ∈ xs, |x| = A) :
    (xs ≠ [] → (inputProcessing st xs).1.currentPeak = A) ∧
      (∀ x, |x| = A → (agcUpdate st x).currentPeak = A ∧
        (agcUpdate st x).inputGain = 0.95 * st.inputGain + 0.05 * 0.8 / A) ∧
      (inputProcessing st xs).1.inputGain - 0.8 / A =
        0.95 ^ xs.length * (st.inputGain - 0.8 / A) ∧
      |(inputProcessing st xs).1.inputGain - 0.8 / A| =
        0.95 ^ xs.length * |st.inputGain - 0.8 / A| ∧
      (st.inputGain ≤ 0.8 / A → (inputProcessing st xs).1.inputGain ≤ 0.8 / A) ∧
      (0.8 / A ≤ st.inputGain → 0.8 / A ≤ (inputProcessing st xs).1.inputGain) ∧
      (∀ ε : ℚ, 0 < ε → ∃ N : Nat, ∀ ys : List ℚ, (∀ y ∈ ys, |y| = A) → N ≤ ys.length →
        |(inputProcessing st ys).1.inputGain - 0.8 / A| < ε) := by
  have h1 : xs ≠ [] → (inputProcessing st xs).1.currentPeak = A :=
    (inputLoop_const st 0 xs A hauto hA hpk hxs).1
  have h3 : (inputProcessing st xs).1.inputGain - 0.8 / A =
      0.95 ^ xs.length * (st.inputGain - 0.8 / A) :=
    (inputLoop_const st 0 xs A hauto hA hpk hxs).2.2
  have hq : (0 : ℚ) ≤ 0.95 ^ xs.length := pow_nonneg (by norm_num) _
  have habs : ∀ ys : List ℚ, (∀ y ∈ ys, |y| = A) →
      |(inputProcessing st ys).1.inputGain - 0.8 / A| =
        0.95 ^ ys.length * |st.inputGain - 0.8 / A| := by
    intro ys hys
    have h : (inputProcessing st ys).1.inputGain - 0.8 / A =
        0.95 ^ ys.length * (st.inputGain - 0.8 / A) :=
      (inputLoop_const st 0 ys A hauto hA hpk hys).2.2
    rw [h, abs_mul, abs_of_nonneg (pow_nonneg (by norm_num) _)]
  refine ⟨h1, fun x hx => agcUpdate_const st x A hauto hA hpk hx, h3, habs xs hxs, ?_, ?_, ?_⟩
  · intro hle
    have : (inputProcessing st xs).1.inputGain - 0.8 / A ≤ 0 := by
      rw [h3]
      exact mul_nonpos_of_nonneg_of_nonpos hq (by linarith)
    linarith
  · intro hle
    have : 0 ≤ (inputProcessing st xs).1.inputGain - 0.8 / A := by
      rw [h3]
      exact mul_nonneg hq (by linarith)
    linarith
  · intro ε hε
    have hD : (0 : ℚ) < |st.inputGain - 0.8 / A| + 1 := by positivity
    obtain ⟨N, hN⟩ := exists_pow_lt_of_lt_one (div_pos hε hD) (by norm_num : (0.95 : ℚ) < 1)
    refine ⟨N, fun ys hys hlen => ?_⟩
    rw [habs ys hys]
    have hmono : (0.95 : ℚ) ^ ys.length ≤ 0.95 ^ N :=
      pow_le_pow_of_le_one (by norm_num) (by norm_num) hlen
    have hN' : (0.95 : ℚ) ^ N * (|st.inputGain - 0.8 / A| + 1) < ε := by
      rwa [lt_div_iff₀ hD] at hN
    have hDn : (0 : ℚ) ≤ |st.inputGain - 0.8 / A| := abs_nonneg _
    have hpN : (0 : ℚ) ≤ 0.95 ^ N := pow_nonneg (by norm_num) _
    calc (0.95 : ℚ) ^ ys.length * |st.inputGain - 0.8 / A|
        ≤ 0.95 ^ N * |st.inputGain - 0.8 / A| := mul_le_mul_of_nonneg_right hmono hDn
      _ ≤ 0.95 ^ N * (|st.inputGain - 0.8 / A| + 1) := by nlinarith
      _ < ε := hN'

theorem agc_convergence_witness :
    (AppState.initial true false).autoGain = true ∧ (1 / 2 : ℚ) > 0.001 ∧
      (AppState.initial true false).currentPeak ≤ 1 / 2 ∧
      (∀ x ∈ ([1 / 2, -1 / 2] : List ℚ), |x| = 1 / 2) ∧
      (inputProcessing (AppState.initial true false) [1 / 2, -1 / 2]).1.inputGain - 0.8 / (1 / 2) =
        0.95 ^ ([1 / 2, -1 / 2] : List ℚ).length *
          ((AppState.initial true false).inputGain - 0.8 / (1 / 2)) := by
  have hx : ∀ x ∈ ([1 / 2, -1 / 2] : List ℚ), |x| = 1 / 2 := by
    intro x hx
    simp only [List.mem_cons, List.mem_singleton, List.not_mem_nil, or_false] at hx
    rcases hx with rfl | rfl
    · norm_num [abs_of_pos]
    · norm_num [abs_of_neg]
  have hp : (AppState.initial true false).currentPeak ≤ 1 / 2 := by
    simp only [AppState.initial]
    norm_num
  exact ⟨rfl, by norm_num, hp, hx,
    (agc_convergence (AppState.initial true false) (1 / 2) [1 / 2, -1 / 2] rfl (by norm_num)
      hp hx).2.2.1⟩

end OpenDSD
